import Mathlib

/-!
Verification of the streaming-chat decoder of the Legal Intelligence Workspace
repository.

The component under study is the incremental Server-Sent-Events-style decoder
implemented as the function streamChat in src/src/pages/UserDashboard.tsx and,
a second time, inline in handleSend in src/src/pages/AuthPage.tsx.  The decoder
pulls byte chunks from an HTTP response body, decodes them with a stateful
UTF-8 text decoder, splits the decoded text on newline characters, extracts
the payload of lines of the form "data: <json>", parses the payload as JSON,
extracts the first choice's delta content, appends truthy fragments to an
accumulated reply and invokes the onDelta callback with the accumulated reply
after every appended fragment.

JavaScript strings are modelled as lists of Unicode scalar values (List Char);
every string operation the source performs on the relevant lines (indexOf of a
newline, slice at a newline or at the 6-character ASCII tag "data: ",
endsWith "\r") acts on ASCII positions, where UTF-16 code-unit indices and
scalar-value indices coincide, so the model is faithful for those operations.
The platform primitives used by the source (TextDecoder with stream mode,
JSON.parse, String.prototype.trim, truthiness and string coercion of the
extracted delta) are modelled explicitly below.
-/

namespace LegalWS

/-- JavaScript string contents, modelled as a list of Unicode scalar values. -/
abbrev Str := List Char

/-- Convert a Lean string literal to the model representation. -/
def ofStr (s : String) : Str := s.data

/-! ### Line splitting

The source locates the first newline with buffer.indexOf and slices the
buffer around it.  splitLine returns the text before the first newline and
the text after it, or none when the buffer holds no newline. -/

/-- Split a buffer at its first newline: the part before the newline and the
part after it, or none when no newline is present.  This models the
buffer.indexOf and buffer.slice steps of the source loop. -/
def splitLine : Str → Option (Str × Str)
  | [] => none
  | c :: rest =>
    if c = '\n' then some ([], rest)
    else
      match splitLine rest with
      | none => none
      | some (l, r) => some (c :: l, r)

theorem splitLine_none {s : Str} (h : splitLine s = none) : '\n' ∉ s := by
  induction s with
  | nil => simp
  | cons c rest ih =>
    simp only [splitLine] at h
    by_cases hc : c = '\n'
    · rw [if_pos hc] at h; exact absurd h (by simp)
    · rw [if_neg hc] at h
      cases hsp : splitLine rest with
      | none =>
        intro hmem
        rcases List.mem_cons.mp hmem with h1 | h2
        · exact hc h1.symm
        · exact ih hsp h2
      | some p =>
        obtain ⟨l, r⟩ := p
        rw [hsp] at h
        simp at h

theorem splitLine_of_no_newline {s : Str} (h : '\n' ∉ s) : splitLine s = none := by
  induction s with
  | nil => rfl
  | cons c rest ih =>
    simp only [List.mem_cons, not_or] at h
    have hc : c ≠ '\n' := fun hcc => h.1 hcc.symm
    simp only [splitLine, if_neg hc, ih h.2]

theorem splitLine_decomp {s raw rest : Str} (h : splitLine s = some (raw, rest)) :
    s = raw ++ '\n' :: rest ∧ '\n' ∉ raw := by
  induction s generalizing raw rest with
  | nil => simp [splitLine] at h
  | cons c tl ih =>
    by_cases hc : c = '\n'
    · subst hc
      simp [splitLine] at h
      obtain ⟨h1, h2⟩ := h
      subst h1; subst h2
      simp
    · simp only [splitLine, if_neg hc] at h
      cases hsp : splitLine tl with
      | none => rw [hsp] at h; simp at h
      | some p =>
        obtain ⟨l, r⟩ := p
        rw [hsp] at h
        simp only [Option.some.injEq, Prod.mk.injEq] at h
        obtain ⟨h1, h2⟩ := h
        obtain ⟨hd, hn⟩ := ih hsp
        subst h2
        constructor
        · rw [← h1, hd]; simp
        · rw [← h1]
          simp only [List.mem_cons, not_or]
          exact ⟨fun hcc => hc hcc.symm, hn⟩

theorem splitLine_build {raw : Str} (rest : Str) (h : '\n' ∉ raw) :
    splitLine (raw ++ '\n' :: rest) = some (raw, rest) := by
  induction raw with
  | nil => simp [splitLine]
  | cons c tl ih =>
    simp only [List.mem_cons, not_or] at h
    have hc : c ≠ '\n' := fun hcc => h.1 hcc.symm
    rw [List.cons_append]
    simp only [splitLine, if_neg hc]
    rw [ih h.2]

theorem splitLine_length {s raw rest : Str} (h : splitLine s = some (raw, rest)) :
    rest.length < s.length := by
  obtain ⟨hd, _⟩ := splitLine_decomp h
  subst hd
  simp
  omega

/-! ### Decomposition of a text into complete lines

linesOf decomposes a text into the list of complete (newline-terminated)
lines and the trailing text after the last newline.  The decoder only ever
parses complete lines; the trailing text stays in its buffer. -/

/-- Decompose a text into its complete lines (the segments before each
newline) and the trailing segment after the last newline. -/
def linesOf : Str → List Str × Str
  | [] => ([], [])
  | c :: rest =>
    let p := linesOf rest
    if c = '\n' then ([] :: p.1, p.2)
    else
      match p with
      | ([], r) => ([], c :: r)
      | (l :: ls, r) => ((c :: l) :: ls, r)

theorem linesOf_no_newline {s : Str} (h : '\n' ∉ s) : linesOf s = ([], s) := by
  induction s with
  | nil => rfl
  | cons c rest ih =>
    simp only [List.mem_cons, not_or] at h
    have hc : c ≠ '\n' := fun hcc => h.1 hcc.symm
    simp [linesOf, if_neg hc, ih h.2]

theorem linesOf_line {raw : Str} (y : Str) (h : '\n' ∉ raw) :
    linesOf (raw ++ '\n' :: y) = (raw :: (linesOf y).1, (linesOf y).2) := by
  induction raw with
  | nil => simp [linesOf]
  | cons c tl ih =>
    simp only [List.mem_cons, not_or] at h
    have hc : c ≠ '\n' := fun hcc => h.1 hcc.symm
    rw [List.cons_append]
    simp only [linesOf, if_neg hc]
    rw [ih h.2]

/-! ### Carriage-return stripping and JavaScript trim -/

/-- Strip one trailing carriage return, modelling the source step
if (line.endsWith "\r") line = line.slice(0, -1). -/
def stripCR (l : Str) : Str :=
  if l.getLast? = some '\r' then l.dropLast else l

/-- Whitespace in the sense of String.prototype.trim: ASCII whitespace plus
the Unicode space separators, no-break space, BOM and the line and paragraph
separators. -/
def isJsWs (c : Char) : Bool :=
  c = ' ' ∨ c = '\t' ∨ c = '\n' ∨ c = '\r' ∨ c = '\x0b' ∨ c = '\x0c' ∨
  c.toNat = 0xa0 ∨ c.toNat = 0xfeff ∨ c.toNat = 0x1680 ∨
  (0x2000 ≤ c.toNat ∧ c.toNat ≤ 0x200a) ∨
  c.toNat = 0x2028 ∨ c.toNat = 0x2029 ∨ c.toNat = 0x202f ∨
  c.toNat = 0x205f ∨ c.toNat = 0x3000

/-- Remove trailing trim-whitespace. -/
def trimEndWs (s : Str) : Str := (s.reverse.dropWhile isJsWs).reverse

/-- Model of String.prototype.trim: remove leading and trailing whitespace. -/
def jsTrim (s : Str) : Str := (trimEndWs s).dropWhile isJsWs

theorem stripCR_sub {l : Str} {c : Char} (h : c ∈ stripCR l) : c ∈ l := by
  unfold stripCR at h
  split at h
  · exact List.dropLast_subset l h
  · exact h

theorem stripCR_prepend (x : Str) {q : Str} (hq : q ≠ []) :
    stripCR (x ++ q) = x ++ stripCR q := by
  obtain ⟨a, l2, rfl⟩ : ∃ a l2, q = a :: l2 := by
    cases q with
    | nil => exact absurd rfl hq
    | cons a l2 => exact ⟨a, l2, rfl⟩
  unfold stripCR
  rw [List.getLast?_append_cons, List.dropLast_append_cons]
  split <;> rfl

theorem jsTrim_dropLast {s : Str} (hl : s.getLast? = some '\r') :
    jsTrim s.dropLast = jsTrim s := by
  have hs : s ≠ [] := by intro h; subst h; simp at hl
  have hrev : s.reverse = '\r' :: s.dropLast.reverse := by
    conv_lhs => rw [← List.dropLast_append_getLast hs]
    rw [List.getLast?_eq_getLast s hs] at hl
    simp only [Option.some.injEq] at hl
    rw [hl, List.reverse_append]
    rfl
  unfold jsTrim trimEndWs
  rw [hrev, List.dropWhile_cons_of_pos]
  simp [isJsWs]

/-- Stripping one trailing carriage return does not change the trimmed
payload of a tagged line. -/
theorem jsTrim_stripCR (q : Str) : jsTrim (stripCR q) = jsTrim q := by
  unfold stripCR
  split
  · exact jsTrim_dropLast (by assumption)
  · rfl

/-! ### JSON values and a model of JSON.parse

The source calls the platform primitive JSON.parse on each extracted
payload.  JSON.parse implements the ECMA-404 JSON grammar; the model below
is a recursive-descent reading of that grammar.  Numbers keep their raw
lexeme (none of the verified claims depends on numeric value computation,
only on truthiness, which is decidable from the lexeme). -/

mutual
/-- A parsed JSON value.  Number values keep the source lexeme.  Arrays and
objects carry their own spine types so that every recursion over values is
structural. -/
inductive JsVal where
  | nullV
  | boolV (b : Bool)
  | numV (lexeme : Str)
  | strV (s : Str)
  | arrV (elems : JsArr)
  | objV (fields : JsObj)

/-- Spine of a JSON array. -/
inductive JsArr where
  | nil
  | cons (v : JsVal) (tail : JsArr)

/-- Spine of a JSON object: a sequence of key-value members. -/
inductive JsObj where
  | nil
  | cons (k : Str) (v : JsVal) (tail : JsObj)
end

/-- Insignificant whitespace of the JSON grammar: space, tab, newline,
carriage return. -/
def isJsonWs (c : Char) : Bool := c = ' ' ∨ c = '\t' ∨ c = '\n' ∨ c = '\r'

/-- Skip insignificant JSON whitespace. -/
def skipWs (s : Str) : Str := s.dropWhile isJsonWs

/-- Value of one hexadecimal digit. -/
def hexDigit (c : Char) : Option Nat :=
  if '0' ≤ c ∧ c ≤ '9' then some (c.toNat - '0'.toNat)
  else if 'a' ≤ c ∧ c ≤ 'f' then some (c.toNat - 'a'.toNat + 10)
  else if 'A' ≤ c ∧ c ≤ 'F' then some (c.toNat - 'A'.toNat + 10)
  else none

/-- Unicode replacement character. -/
def repl : Char := Char.ofNat 0xfffd

/-- Scalar value for a code point; code points that are not scalar values
(lone surrogates) become the replacement character, approximating the
UTF-16 lone surrogate a JavaScript string would hold. -/
def scalarOf (n : Nat) : Char :=
  if n < 0xd800 ∨ (0xdfff < n ∧ n < 0x110000) then Char.ofNat n else repl

/-- Fuel-indexed worker for strBody. -/
def strBodyF : Nat → Str → Option (Str × Str)
  | 0, _ => none
  | _, [] => none
  | _, '"' :: rest => some ([], rest)
  | fuel + 1, '\\' :: r =>
    match r with
    | '"' :: r2 => (strBodyF fuel r2).map (fun p => ('"' :: p.1, p.2))
    | '\\' :: r2 => (strBodyF fuel r2).map (fun p => ('\\' :: p.1, p.2))
    | '/' :: r2 => (strBodyF fuel r2).map (fun p => ('/' :: p.1, p.2))
    | 'b' :: r2 => (strBodyF fuel r2).map (fun p => ('\x08' :: p.1, p.2))
    | 'f' :: r2 => (strBodyF fuel r2).map (fun p => ('\x0c' :: p.1, p.2))
    | 'n' :: r2 => (strBodyF fuel r2).map (fun p => ('\n' :: p.1, p.2))
    | 'r' :: r2 => (strBodyF fuel r2).map (fun p => ('\r' :: p.1, p.2))
    | 't' :: r2 => (strBodyF fuel r2).map (fun p => ('\t' :: p.1, p.2))
    | 'u' :: a :: b :: c :: d :: r2 =>
      (match hexDigit a, hexDigit b, hexDigit c, hexDigit d with
       | some ha, some hb, some hc, some hd =>
         let n := ((ha * 16 + hb) * 16 + hc) * 16 + hd
         if 0xd800 ≤ n ∧ n ≤ 0xdbff then
           match r2 with
           | '\\' :: 'u' :: a2 :: b2 :: c2 :: d2 :: r3 =>
             (match hexDigit a2, hexDigit b2, hexDigit c2, hexDigit d2 with
              | some he, some hf, some hg, some hh =>
                let m := ((he * 16 + hf) * 16 + hg) * 16 + hh
                if 0xdc00 ≤ m ∧ m ≤ 0xdfff then
                  (strBodyF fuel r3).map (fun p =>
                    (scalarOf (0x10000 + (n - 0xd800) * 0x400 + (m - 0xdc00)) :: p.1, p.2))
                else (strBodyF fuel r2).map (fun p => (repl :: p.1, p.2))
              | _, _, _, _ => (strBodyF fuel r2).map (fun p => (repl :: p.1, p.2)))
           | _ => (strBodyF fuel r2).map (fun p => (repl :: p.1, p.2))
         else (strBodyF fuel r2).map (fun p => (scalarOf n :: p.1, p.2))
       | _, _, _, _ => none)
    | _ => none
  | fuel + 1, c :: rest =>
    if c.toNat < 0x20 then none
    else (strBodyF fuel rest).map (fun p => (c :: p.1, p.2))

/-- Parse the body of a JSON string after the opening quote: decoded
contents plus the remainder after the closing quote.  Unescaped control
characters are rejected; \uXXXX escapes forming a surrogate pair are
combined into one scalar.  Recursion is fuel-indexed; one unit of fuel is
ample per input character. -/
def strBody (s : Str) : Option (Str × Str) := strBodyF (s.length + 1) s

/-- Leading run of decimal digits and the remainder. -/
def digitsSpan (s : Str) : Str × Str := (s.takeWhile Char.isDigit, s.dropWhile Char.isDigit)

/-- Optional exponent digits (after the e and an optional sign). -/
def expDigits (lex : Str) (s : Str) : Option (Str × Str) :=
  let p := match s with
    | '+' :: r => (['+'], r)
    | '-' :: r => (['-'], r)
    | _ => (([] : Str), s)
  match digitsSpan p.2 with
  | ([], _) => none
  | (ds, r2) => some (lex ++ p.1 ++ ds, r2)

/-- Optional exponent part of a JSON number. -/
def expOpt (lex : Str) (s : Str) : Option (Str × Str) :=
  match s with
  | 'e' :: r => expDigits (lex ++ ['e']) r
  | 'E' :: r => expDigits (lex ++ ['E']) r
  | _ => some (lex, s)

/-- Optional fraction part of a JSON number, then the optional exponent. -/
def fracOpt (lex : Str) (s : Str) : Option (Str × Str) :=
  match s with
  | '.' :: r =>
    (match digitsSpan r with
     | ([], _) => none
     | (ds, r2) => expOpt (lex ++ '.' :: ds) r2)
  | _ => expOpt lex s

/-- Parse the JSON number grammar, returning the raw lexeme and the
remainder. -/
def numLex (s : Str) : Option (Str × Str) :=
  let p := match s with
    | '-' :: r => (['-'], r)
    | _ => (([] : Str), s)
  match p.2 with
  | '0' :: r => fracOpt (p.1 ++ ['0']) r
  | c :: _ =>
    if '1' ≤ c ∧ c ≤ '9' then
      match digitsSpan p.2 with
      | (ds, r) => fracOpt (p.1 ++ ds) r
    else none
  | [] => none

/-- Parsing mode: one value, array elements after the opening bracket, or
object members after the opening brace. -/
inductive PMode where
  | pv
  | pe
  | pf

/-- Result of one parsing-mode run. -/
inductive PRes where
  | rv (v : JsVal)
  | re (vs : JsArr)
  | rf (fs : JsObj)

/-- Fuel-indexed recursive-descent JSON reader.  The fuel only bounds
recursion depth; jsonParse supplies enough for its input. -/
def parseJ : Nat → PMode → Str → Option (PRes × Str)
  | 0, _, _ => none
  | fuel + 1, PMode.pv, s =>
    match skipWs s with
    | 'n' :: 'u' :: 'l' :: 'l' :: r => some (.rv .nullV, r)
    | 't' :: 'r' :: 'u' :: 'e' :: r => some (.rv (.boolV true), r)
    | 'f' :: 'a' :: 'l' :: 's' :: 'e' :: r => some (.rv (.boolV false), r)
    | '"' :: r => (strBody r).map fun p => (.rv (.strV p.1), p.2)
    | '[' :: r =>
      (match skipWs r with
       | ']' :: r2 => some (.rv (.arrV .nil), r2)
       | _ =>
         match parseJ fuel .pe r with
         | some (.re vs, r2) => some (.rv (.arrV vs), r2)
         | _ => none)
    | '{' :: r =>
      (match skipWs r with
       | '}' :: r2 => some (.rv (.objV .nil), r2)
       | _ =>
         match parseJ fuel .pf r with
         | some (.rf fs, r2) => some (.rv (.objV fs), r2)
         | _ => none)
    | s2 => (numLex s2).map fun p => (.rv (.numV p.1), p.2)
  | fuel + 1, PMode.pe, s =>
    match parseJ fuel .pv s with
    | some (.rv v, r) =>
      (match skipWs r with
       | ',' :: r2 =>
         (match parseJ fuel .pe r2 with
          | some (.re vs, r3) => some (.re (.cons v vs), r3)
          | _ => none)
       | ']' :: r2 => some (.re (.cons v .nil), r2)
       | _ => none)
    | _ => none
  | fuel + 1, PMode.pf, s =>
    match skipWs s with
    | '"' :: r =>
      (match strBody r with
       | some (k, r2) =>
         (match skipWs r2 with
          | ':' :: r3 =>
            (match parseJ fuel .pv r3 with
             | some (.rv v, r4) =>
               (match skipWs r4 with
                | ',' :: r5 =>
                  (match parseJ fuel .pf r5 with
                   | some (.rf fs, r6) => some (.rf (.cons k v fs), r6)
                   | _ => none)
                | '}' :: r5 => some (.rf (.cons k v .nil), r5)
                | _ => none)
             | _ => none)
          | _ => none)
       | none => none)
    | _ => none

/-- Model of JSON.parse: parse one JSON value and require that only
whitespace remains.  The none result models a thrown SyntaxError. -/
def jsonParse (s : Str) : Option JsVal :=
  match parseJ (2 * s.length + 4) .pv s with
  | some (.rv v, r) => if skipWs r = [] then some v else none
  | _ => none

/-! ### Truthiness, string coercion and the delta property chain

The source tests the extracted delta with a plain truthiness check
(if (delta)) and appends it with string concatenation
(assistantContent += delta), which coerces non-string values. -/

/-- Whether a JSON number lexeme denotes zero: its mantissa holds no
non-zero digit (signs, a leading zero, a decimal point and any exponent are
ignored, as the value is zero regardless of the exponent). -/
def numIsZero (lex : Str) : Bool :=
  (lex.takeWhile (fun c => ¬(c = 'e' ∨ c = 'E'))).all
    (fun c => ¬('1' ≤ c ∧ c ≤ '9'))

/-- JavaScript truthiness of a parsed JSON value: null, false, the empty
string and zero are falsy, everything else truthy. -/
def truthy : JsVal → Bool
  | .nullV => false
  | .boolV b => b
  | .strV s => ¬s.isEmpty
  | .numV lex => ¬numIsZero lex
  | .arrV _ => true
  | .objV _ => true

/-- Find the value of a key in an object, the last duplicate winning as in
JSON.parse. -/
def objFindLast : JsObj → Str → Option JsVal
  | .nil, _ => none
  | .cons k v tail, key =>
    match objFindLast tail key with
    | some r => some r
    | none => if k = key then some v else none

mutual
/-- JavaScript string coercion of a parsed JSON value: strings coerce to
themselves, numbers to their lexeme, booleans and null to their names,
arrays to their comma-joined elements and plain objects to the usual
object tag. -/
def jsToStr : JsVal → Str
  | .nullV => ofStr "null"
  | .boolV true => ofStr "true"
  | .boolV false => ofStr "false"
  | .numV lex => lex
  | .strV s => s
  | .arrV es => arrJoin es
  | .objV _ => ofStr "[object Object]"

/-- Array.prototype.join with the default comma separator; null elements
contribute the empty string. -/
def arrJoin : JsArr → Str
  | .nil => []
  | .cons e tail =>
    let es := match e with
      | .nullV => []
      | v => jsToStr v
    match tail with
    | .nil => es
    | _ => es ++ ',' :: arrJoin tail
end

/-- One step of the optional chain: undefined (none) and null
short-circuit, anything else is fed to the accessor. -/
def optStep (o : Option JsVal) (f : JsVal → Option JsVal) : Option JsVal :=
  match o with
  | none => none
  | some .nullV => none
  | some v => f v

/-- Property access on a non-null value: objects look the key up (last
duplicate wins, as in JSON.parse), everything else yields undefined. -/
def getProp (v : JsVal) (k : Str) : Option JsVal :=
  match v with
  | .objV fs => objFindLast fs k
  | _ => none

/-- Index access [0] on a non-null value: the first array element, the key
"0" of an object, the first character of a string, undefined otherwise. -/
def index0 : JsVal → Option JsVal
  | .arrV (.cons e _) => some e
  | .objV fs => objFindLast fs (ofStr "0")
  | .strV (c :: _) => some (.strV [c])
  | _ => none

/-- Evaluation of parsed.choices?.[0]?.delta?.content.  The first access is
not optional, so a null parsed value throws a TypeError (the error case);
the remaining accesses are optional-chained. -/
def chainContent (parsed : JsVal) : Except Unit (Option JsVal) :=
  match parsed with
  | .nullV => .error ()
  | v =>
    .ok (optStep (optStep (optStep (getProp v (ofStr "choices")) index0)
          (fun x => getProp x (ofStr "delta")))
          (fun x => getProp x (ofStr "content")))

/-- The text appended for one parsed payload: the error case is a thrown
TypeError; ok none means the truthiness check failed and nothing is
appended; ok (some d) means d is appended and the callback runs. -/
def deltaOf (parsed : JsVal) : Except Unit (Option Str) :=
  match chainContent parsed with
  | .error _ => .error ()
  | .ok none => .ok none
  | .ok (some v) => .ok (if truthy v then some (jsToStr v) else none)

/-! ### The per-line action of the decoder loop -/

/-- The ASCII tag "data: ". -/
def dataTag : Str := ofStr "data: "

/-- The sentinel payload. -/
def doneTok : Str := ofStr "[DONE]"

/-- Outcome of processing one complete line. -/
inductive LineResult where
  | skip
  | frag (d : Str)
  | done
  | bad (l : Str)
deriving DecidableEq

/-- What the body of the inner while loop does with one complete line
(before the buffer update): strip one trailing carriage return, discard
lines without the data tag, trim the payload, stop at the sentinel,
otherwise parse the payload and extract the delta; a parse or TypeError
failure reports the stripped line for push-back. -/
def lineAction (raw : Str) : LineResult :=
  let line := stripCR raw
  if dataTag.isPrefixOf line then
    let payload := jsTrim (line.drop 6)
    if payload = doneTok then .done
    else
      match jsonParse payload with
      | none => .bad line
      | some parsed =>
        match deltaOf parsed with
        | .error _ => .bad line
        | .ok none => .skip
        | .ok (some d) => .frag d
  else .skip

/-! ### Stability of the push-back line

A pushed-back line is the carriage-return-stripped form of the line that
failed; its trimmed payload is unchanged by further stripping, so the line
fails again every time it is reprocessed. -/

/-- A payload on which the try block of the source throws: it is not the
sentinel, and parsing it either fails outright or yields a value on which
the property chain throws. -/
def badPayload (p : Str) : Prop :=
  p ≠ doneTok ∧ ∀ v, jsonParse p = some v → deltaOf v = .error ()

theorem dataTag_prefix_iff {l : Str} :
    dataTag.isPrefixOf l = true ↔ ∃ q, l = dataTag ++ q := by
  rw [List.isPrefixOf_iff_prefix]
  constructor
  · rintro ⟨t, ht⟩; exact ⟨t, ht.symm⟩
  · rintro ⟨q, rfl⟩; exact ⟨q, rfl⟩

theorem payload_stripCR {l : Str} (h : dataTag.isPrefixOf l = true) :
    dataTag.isPrefixOf (stripCR l) = true ∧
      jsTrim ((stripCR l).drop 6) = jsTrim (l.drop 6) := by
  obtain ⟨q, rfl⟩ := dataTag_prefix_iff.mp h
  by_cases hq : q = []
  · subst hq; exact ⟨h, rfl⟩
  · rw [stripCR_prepend dataTag hq]
    constructor
    · exact dataTag_prefix_iff.mpr ⟨stripCR q, rfl⟩
    · have h6 : dataTag.length = 6 := rfl
      rw [← h6, List.drop_left, List.drop_left]
      exact jsTrim_stripCR q

theorem lineAction_bad_spec {raw l : Str} (h : lineAction raw = .bad l) :
    l = stripCR raw ∧ dataTag.isPrefixOf l = true ∧
      badPayload (jsTrim (l.drop 6)) := by
  simp only [lineAction] at h
  by_cases hp : dataTag.isPrefixOf (stripCR raw) = true
  · rw [if_pos hp] at h
    by_cases hd : jsTrim ((stripCR raw).drop 6) = doneTok
    · rw [if_pos hd] at h; exact absurd h (by simp)
    · rw [if_neg hd] at h
      cases hj : jsonParse (jsTrim ((stripCR raw).drop 6)) with
      | none =>
        rw [hj] at h
        simp only [LineResult.bad.injEq] at h
        subst h
        exact ⟨rfl, hp, hd, fun v hv => absurd hv (by rw [hj]; simp)⟩
      | some parsed =>
        rw [hj] at h
        cases hdel : deltaOf parsed with
        | error u =>
          simp only [hdel, LineResult.bad.injEq] at h
          subst h
          refine ⟨rfl, hp, hd, fun v hv => ?_⟩
          rw [hj] at hv
          cases hv
          cases u
          exact hdel
        | ok o =>
          simp only [hdel] at h
          cases o <;> simp at h
  · rw [if_neg hp] at h
    exact absurd h (by simp)

theorem lineAction_bad_intro {l : Str} (hp : dataTag.isPrefixOf l = true)
    (hb : badPayload (jsTrim (l.drop 6))) : lineAction l = .bad (stripCR l) := by
  obtain ⟨hp2, hpay⟩ := payload_stripCR hp
  simp only [lineAction, if_pos hp2, hpay]
  rw [if_neg hb.1]
  cases hj : jsonParse (jsTrim (l.drop 6)) with
  | none => rfl
  | some parsed => simp only [hb.2 parsed hj]

/-! ### The inner while loop -/

/-- State of one decode operation: the line buffer, the accumulated reply
and the list of arguments passed to onDelta so far, in call order. -/
structure TState where
  buffer : Str
  acc : Str
  calls : List Str
deriving DecidableEq

/-- Fuel-indexed model of the inner while loop of streamChat: repeatedly
split a complete line off the buffer and act on it.  The sentinel stops the
loop keeping the rest of the buffer; a parse failure stops it after pushing
the stripped line plus a newline back onto the front of the buffer. -/
def processLines : Nat → Str → Str → List Str → TState
  | 0, buf, a, cs => ⟨buf, a, cs⟩
  | fuel + 1, buf, a, cs =>
    match splitLine buf with
    | none => ⟨buf, a, cs⟩
    | some (raw, rest) =>
      match lineAction raw with
      | .skip => processLines fuel rest a cs
      | .frag d => processLines fuel rest (a ++ d) (cs ++ [a ++ d])
      | .done => ⟨rest, a, cs⟩
      | .bad l => ⟨l ++ '\n' :: rest, a, cs⟩

/-- The inner loop run with its canonical fuel (one unit per buffered
character is always enough, since each iteration consumes a line and its
newline). -/
def processL (buf : Str) (a : Str) (cs : List Str) : TState :=
  processLines buf.length buf a cs

theorem processLines_fuel :
    ∀ f g buf a cs, buf.length ≤ f → buf.length ≤ g →
      processLines f buf a cs = processLines g buf a cs := by
  intro f
  induction f with
  | zero =>
    intro g buf a cs hf _
    have hb : buf = [] := List.length_eq_zero.mp (Nat.le_zero.mp hf)
    subst hb
    cases g <;> rfl
  | succ f ih =>
    intro g buf a cs hf hg
    cases g with
    | zero =>
      have hb : buf = [] := List.length_eq_zero.mp (Nat.le_zero.mp hg)
      subst hb
      rfl
    | succ g =>
      cases hsp : splitLine buf with
      | none => simp only [processLines, hsp]
      | some p =>
        obtain ⟨raw, rest⟩ := p
        have hlen := splitLine_length hsp
        simp only [processLines, hsp]
        cases lineAction raw with
        | skip => exact ih g rest a cs (by omega) (by omega)
        | frag d => exact ih g rest (a ++ d) (cs ++ [a ++ d]) (by omega) (by omega)
        | done => rfl
        | bad l => rfl

theorem processL_eq_fuel {f : Nat} {buf a cs} (hf : buf.length ≤ f) :
    processLines f buf a cs = processL buf a cs :=
  processLines_fuel f buf.length buf a cs hf (Nat.le_refl _)

theorem processL_none {buf : Str} {a cs} (h : splitLine buf = none) :
    processL buf a cs = ⟨buf, a, cs⟩ := by
  cases buf with
  | nil => rfl
  | cons c tl => simp only [processL, List.length_cons, processLines, h]

theorem processL_skip {buf raw rest : Str} {a cs}
    (hsp : splitLine buf = some (raw, rest)) (ha : lineAction raw = .skip) :
    processL buf a cs = processL rest a cs := by
  cases buf with
  | nil => simp [splitLine] at hsp
  | cons c tl =>
    have hlen := splitLine_length hsp
    simp only [processL, List.length_cons, processLines, hsp, ha]
    exact processL_eq_fuel (by simp at hlen; omega)

theorem processL_frag {buf raw rest : Str} {a cs} {d : Str}
    (hsp : splitLine buf = some (raw, rest)) (ha : lineAction raw = .frag d) :
    processL buf a cs = processL rest (a ++ d) (cs ++ [a ++ d]) := by
  cases buf with
  | nil => simp [splitLine] at hsp
  | cons c tl =>
    have hlen := splitLine_length hsp
    simp only [processL, List.length_cons, processLines, hsp, ha]
    exact processL_eq_fuel (by simp at hlen; omega)

theorem processL_done {buf raw rest : Str} {a cs}
    (hsp : splitLine buf = some (raw, rest)) (ha : lineAction raw = .done) :
    processL buf a cs = ⟨rest, a, cs⟩ := by
  cases buf with
  | nil => simp [splitLine] at hsp
  | cons c tl => simp only [processL, List.length_cons, processLines, hsp, ha]

theorem processL_bad {buf raw rest : Str} {a cs} {l : Str}
    (hsp : splitLine buf = some (raw, rest)) (ha : lineAction raw = .bad l) :
    processL buf a cs = ⟨l ++ '\n' :: rest, a, cs⟩ := by
  cases buf with
  | nil => simp [splitLine] at hsp
  | cons c tl => simp only [processL, List.length_cons, processLines, hsp, ha]

/-! ### Reference line semantics

refRun processes every complete line of a text in order, never waiting for
more input: the sentinel line contributes nothing and processing continues
past it, while a failing line stops the run (the decoder can never get past
such a line).  The chunk-split invariance argument compares every chunked
run of the decoder against this chunk-free semantics. -/

/-- Reference semantics: act on every complete line in order; the sentinel
is skipped over, a failing line ends the run.  Returns the unconsumed text
and the final accumulator and call list. -/
def refRun : Nat → Str → Str → List Str → TState
  | 0, buf, a, cs => ⟨buf, a, cs⟩
  | fuel + 1, buf, a, cs =>
    match splitLine buf with
    | none => ⟨buf, a, cs⟩
    | some (raw, rest) =>
      match lineAction raw with
      | .skip => refRun fuel rest a cs
      | .frag d => refRun fuel rest (a ++ d) (cs ++ [a ++ d])
      | .done => refRun fuel rest a cs
      | .bad _ => ⟨buf, a, cs⟩

/-- The reference semantics with its canonical fuel. -/
def refR (buf : Str) (a : Str) (cs : List Str) : TState :=
  refRun buf.length buf a cs

theorem refRun_fuel :
    ∀ f g buf a cs, buf.length ≤ f → buf.length ≤ g →
      refRun f buf a cs = refRun g buf a cs := by
  intro f
  induction f with
  | zero =>
    intro g buf a cs hf _
    have hb : buf = [] := List.length_eq_zero.mp (Nat.le_zero.mp hf)
    subst hb
    cases g <;> rfl
  | succ f ih =>
    intro g buf a cs hf hg
    cases g with
    | zero =>
      have hb : buf = [] := List.length_eq_zero.mp (Nat.le_zero.mp hg)
      subst hb
      rfl
    | succ g =>
      cases hsp : splitLine buf with
      | none => simp only [refRun, hsp]
      | some p =>
        obtain ⟨raw, rest⟩ := p
        have hlen := splitLine_length hsp
        simp only [refRun, hsp]
        cases lineAction raw with
        | skip => exact ih g rest a cs (by omega) (by omega)
        | frag d => exact ih g rest (a ++ d) (cs ++ [a ++ d]) (by omega) (by omega)
        | done => exact ih g rest a cs (by omega) (by omega)
        | bad l => rfl

theorem refR_eq_fuel {f : Nat} {buf a cs} (hf : buf.length ≤ f) :
    refRun f buf a cs = refR buf a cs :=
  refRun_fuel f buf.length buf a cs hf (Nat.le_refl _)

theorem refR_nil {a cs} : refR [] a cs = ⟨[], a, cs⟩ := rfl

theorem refR_none {buf : Str} {a cs} (h : splitLine buf = none) :
    refR buf a cs = ⟨buf, a, cs⟩ := by
  cases buf with
  | nil => rfl
  | cons c tl => simp only [refR, List.length_cons, refRun, h]

theorem refR_skip {buf raw rest : Str} {a cs}
    (hsp : splitLine buf = some (raw, rest)) (ha : lineAction raw = .skip) :
    refR buf a cs = refR rest a cs := by
  cases buf with
  | nil => simp [splitLine] at hsp
  | cons c tl =>
    have hlen := splitLine_length hsp
    simp only [refR, List.length_cons, refRun, hsp, ha]
    exact refR_eq_fuel (by simp at hlen; omega)

theorem refR_frag {buf raw rest : Str} {a cs} {d : Str}
    (hsp : splitLine buf = some (raw, rest)) (ha : lineAction raw = .frag d) :
    refR buf a cs = refR rest (a ++ d) (cs ++ [a ++ d]) := by
  cases buf with
  | nil => simp [splitLine] at hsp
  | cons c tl =>
    have hlen := splitLine_length hsp
    simp only [refR, List.length_cons, refRun, hsp, ha]
    exact refR_eq_fuel (by simp at hlen; omega)

theorem refR_done {buf raw rest : Str} {a cs}
    (hsp : splitLine buf = some (raw, rest)) (ha : lineAction raw = .done) :
    refR buf a cs = refR rest a cs := by
  cases buf with
  | nil => simp [splitLine] at hsp
  | cons c tl =>
    have hlen := splitLine_length hsp
    simp only [refR, List.length_cons, refRun, hsp, ha]
    exact refR_eq_fuel (by simp at hlen; omega)

theorem refR_bad {buf raw rest : Str} {a cs} {l : Str}
    (hsp : splitLine buf = some (raw, rest)) (ha : lineAction raw = .bad l) :
    refR buf a cs = ⟨buf, a, cs⟩ := by
  cases buf with
  | nil => simp [splitLine] at hsp
  | cons c tl => simp only [refR, List.length_cons, refRun, hsp, ha]

/-! ### The text-level decode machine -/

/-- Feed one decoded text chunk to the decoder: append it to the buffer and
run the inner loop. -/
def feedText (s : TState) (t : Str) : TState :=
  processL (s.buffer ++ t) s.acc s.calls

/-- Run the decoder from the initial state over a list of decoded text
chunks. -/
def runText (ts : List Str) : TState := ts.foldl feedText ⟨[], [], []⟩

/-! ### UTF-8 byte decoding

The source decodes with one TextDecoder instance in stream mode, so a
multi-byte character split across chunk boundaries decodes correctly.  The
model feeds bytes one at a time to a decoder whose state is the pending
prefix of an incomplete multi-byte sequence; malformed bytes produce the
replacement character, as in the WHATWG decoder the platform implements. -/

/-- Expected total length of a UTF-8 sequence introduced by a lead byte,
with 0 for a byte that cannot begin a sequence. -/
def u8Need (b : Nat) : Nat :=
  if b < 0x80 then 1
  else if b < 0xc0 then 0
  else if b < 0xe0 then 2
  else if b < 0xf0 then 3
  else if b < 0xf8 then 4
  else 0

/-- Combine a complete UTF-8 sequence into a character, with the
replacement character for sequences that do not denote a scalar value. -/
def u8Char (bs : List Nat) : Char :=
  match bs with
  | [b] => scalarOf (b % 0x80)
  | [b1, b2] =>
    let n := (b1 - 0xc0) * 0x40 + (b2 - 0x80)
    if n < 0x80 then repl else scalarOf n
  | [b1, b2, b3] =>
    let n := ((b1 - 0xe0) * 0x40 + (b2 - 0x80)) * 0x40 + (b3 - 0x80)
    if n < 0x800 then repl else scalarOf n
  | [b1, b2, b3, b4] =>
    let n := (((b1 - 0xf0) * 0x40 + (b2 - 0x80)) * 0x40 + (b3 - 0x80)) * 0x40 + (b4 - 0x80)
    if n < 0x10000 then repl else scalarOf n
  | _ => repl

/-- Whether a byte is a UTF-8 continuation byte. -/
def isCont (b : Nat) : Bool := 0x80 ≤ b ∧ b < 0xc0

/-- Feed one byte to the stateful decoder: emitted characters and the new
pending state. -/
def u8Step (st : List Nat) (b : Nat) : List Char × List Nat :=
  match st with
  | [] =>
    if b < 0x80 then ([Char.ofNat b], [])
    else if u8Need b = 0 then ([repl], [])
    else ([], [b])
  | lead :: _ =>
    if isCont b then
      let st2 := st ++ [b]
      if st2.length = u8Need lead then ([u8Char st2], []) else ([], st2)
    else
      let p : List Char × List Nat :=
        if b < 0x80 then ([Char.ofNat b], [])
        else if u8Need b = 0 then ([repl], [])
        else ([], [b])
      (repl :: p.1, p.2)

/-- Feed a chunk of bytes to the stateful decoder. -/
def u8Feed : List Nat → List Nat → List Char × List Nat
  | st, [] => ([], st)
  | st, b :: bs =>
    let p := u8Step st b
    let q := u8Feed p.2 bs
    (p.1 ++ q.1, q.2)

theorem u8Feed_append (st : List Nat) (xs ys : List Nat) :
    u8Feed st (xs ++ ys) =
      ((u8Feed st xs).1 ++ (u8Feed (u8Feed st xs).2 ys).1,
        (u8Feed (u8Feed st xs).2 ys).2) := by
  induction xs generalizing st with
  | nil => simp [u8Feed]
  | cons b bs ih =>
    simp only [List.cons_append, u8Feed, List.append_eq, ih (u8Step st b).2,
      List.append_assoc]

/-! ### The byte-level decode machine and streamChat -/

/-- Full decoder state: pending bytes of the text decoder, the line buffer,
the accumulated reply and the onDelta call arguments so far. -/
structure DState where
  u8 : List Nat
  buffer : Str
  acc : Str
  calls : List Str
deriving DecidableEq

/-- One iteration of the outer read loop of streamChat on a received chunk:
decode the bytes in stream mode, append the text to the buffer and run the
inner line loop. -/
def feedBytes (s : DState) (chunk : List Nat) : DState :=
  let p := u8Feed s.u8 chunk
  let r := processL (s.buffer ++ p.1) s.acc s.calls
  ⟨p.2, r.buffer, r.acc, r.calls⟩

/-- Run the decode loop of streamChat over the successive chunks the body
reader yields until done. -/
def runBytes (chunks : List (List Nat)) : DState :=
  chunks.foldl feedBytes ⟨[], [], [], []⟩

/-- An HTTP response as streamChat observes it: the ok flag and, when
present, the body as the list of chunks its reader will yield. -/
structure HttpResp where
  ok : Bool
  body : Option (List (List Nat))

/-- The message of the error thrown on a transport failure. -/
def chatFailMsg : Str := ofStr "Chat failed"

/-- Model of streamChat (UserDashboard.tsx): fail with the transport error
when the response is not ok or has no body, before any callback; otherwise
run the decode loop and return the accumulated text.  The second component
is the list of onDelta call arguments (empty on the failure path, which
throws before the loop). -/
def streamChat (resp : HttpResp) : Except Str Str × List Str :=
  if resp.ok = false then (.error chatFailMsg, [])
  else
    match resp.body with
    | none => (.error chatFailMsg, [])
    | some chunks =>
      let s := runBytes chunks
      (.ok s.acc, s.calls)

/-! ### Composition and classification lemmas -/

theorem refR_comp :
    ∀ n (D E a cs a2 cs2 : _), D.length ≤ n → refR D a cs = ⟨[], a2, cs2⟩ →
      refR (D ++ E) a cs = refR E a2 cs2 := by
  intro n
  induction n with
  | zero =>
    intro D E a cs a2 cs2 hn h
    have hD : D = [] := List.length_eq_zero.mp (Nat.le_zero.mp hn)
    subst hD
    rw [refR_nil] at h
    injection h with h0 h1 h2
    subst h1; subst h2
    rw [List.nil_append]
  | succ n ih =>
    intro D E a cs a2 cs2 hn h
    cases hsp : splitLine D with
    | none =>
      rw [refR_none hsp] at h
      injection h with h0 h1 h2
      subst h0; subst h1; subst h2
      rw [List.nil_append]
    | some p =>
      obtain ⟨raw, rest⟩ := p
      obtain ⟨hD, hraw⟩ := splitLine_decomp hsp
      have hrest : rest.length ≤ n := by
        have := splitLine_length hsp; omega
      have hDE : D ++ E = raw ++ '
' :: (rest ++ E) := by
        rw [hD]; simp
      have hspE : splitLine (D ++ E) = some (raw, rest ++ E) := by
        rw [hDE]; exact splitLine_build _ hraw
      cases hact : lineAction raw with
      | skip =>
        rw [refR_skip hsp hact] at h
        rw [refR_skip hspE hact]
        exact ih rest E a cs a2 cs2 hrest h
      | frag d =>
        rw [refR_frag hsp hact] at h
        rw [refR_frag hspE hact]
        exact ih rest E (a ++ d) (cs ++ [a ++ d]) a2 cs2 hrest h
      | done =>
        rw [refR_done hsp hact] at h
        rw [refR_done hspE hact]
        exact ih rest E a cs a2 cs2 hrest h
      | bad l =>
        rw [refR_bad hsp hact] at h
        injection h with h0 h1 h2
        rw [hD] at h0
        simp at h0

theorem refR_append {D E a cs a2 cs2}
    (h : refR D a cs = ⟨[], a2, cs2⟩) : refR (D ++ E) a cs = refR E a2 cs2 :=
  refR_comp D.length D E a cs a2 cs2 (Nat.le_refl _) h

theorem refR_leftover :
    ∀ n (buf a cs : _), buf.length ≤ n → (refR buf a cs).buffer = [] →
      buf = [] ∨ buf.getLast? = some '\n' := by
  intro n
  induction n with
  | zero =>
    intro buf a cs hn _
    exact Or.inl (List.length_eq_zero.mp (Nat.le_zero.mp hn))
  | succ n ih =>
    intro buf a cs hn h
    cases hsp : splitLine buf with
    | none =>
      rw [refR_none hsp] at h
      exact Or.inl h
    | some p =>
      obtain ⟨raw, rest⟩ := p
      obtain ⟨hD, hraw⟩ := splitLine_decomp hsp
      have hrest : rest.length ≤ n := by
        have := splitLine_length hsp; omega
      have hlast : rest = [] ∨ rest.getLast? = some '\n' →
          buf = [] ∨ buf.getLast? = some '\n' := by
        intro hc
        right
        rcases hc with hc | hc
        · subst hc; rw [hD]
          rw [List.getLast?_append_cons]
          simp
        · rw [hD, show raw ++ '\n' :: rest = (raw ++ ['\n']) ++ rest by simp]
          rw [List.getLast?_append_of_ne_nil _ (by intro hx; rw [hx] at hc; simp at hc)]
          exact hc
      cases hact : lineAction raw with
      | skip => rw [refR_skip hsp hact] at h; exact hlast (ih rest a cs hrest h)
      | frag d => rw [refR_frag hsp hact] at h
                  exact hlast (ih rest (a ++ d) (cs ++ [a ++ d]) hrest h)
      | done => rw [refR_done hsp hact] at h; exact hlast (ih rest a cs hrest h)
      | bad l =>
        rw [refR_bad hsp hact] at h
        simp only at h
        rw [hD] at h
        simp at h

theorem linesOf_ne_nil {s : Str} (h : '\n' ∈ s) : (linesOf s).1 ≠ [] := by
  induction s with
  | nil => simp at h
  | cons c rest ih =>
    by_cases hc : c = '\n'
    · subst hc; simp [linesOf]
    · have hr : '\n' ∈ rest := by
        rcases List.mem_cons.mp h with h1 | h2
        · exact absurd h1.symm hc
        · exact h2
      simp only [linesOf, if_neg hc]
      cases hp : linesOf rest with
      | mk ls r =>
        cases ls with
        | nil => exact absurd (by rw [hp] : (linesOf rest).1 = []) (ih hr)
        | cons l0 ls0 => simp

theorem linesOf_append_complete :
    ∀ n (D Y : Str), D.length ≤ n → (D = [] ∨ D.getLast? = some '\n') →
      linesOf (D ++ Y) = ((linesOf D).1 ++ (linesOf Y).1, (linesOf Y).2) := by
  intro n
  induction n with
  | zero =>
    intro D Y hn _
    have hD : D = [] := List.length_eq_zero.mp (Nat.le_zero.mp hn)
    subst hD; simp [linesOf]
  | succ n ih =>
    intro D Y hn h
    rcases h with h | h
    · subst h; simp [linesOf]
    · have hmem : '\n' ∈ D := by
        have hsplit := List.dropLast_append_getLast? '\n' (Option.mem_def.mpr h)
        rw [← hsplit]; simp
      obtain ⟨p, hsp⟩ : ∃ p, splitLine D = some p := by
        cases hq : splitLine D with
        | none => exact absurd hmem (splitLine_none hq)
        | some p => exact ⟨p, rfl⟩
      obtain ⟨raw, rest⟩ := p
      obtain ⟨hD, hraw⟩ := splitLine_decomp hsp
      have hrest : rest.length ≤ n := by have := splitLine_length hsp; omega
      have hrc : rest = [] ∨ rest.getLast? = some '\n' := by
        cases hr0 : rest with
        | nil => exact Or.inl rfl
        | cons r0 rs =>
          right
          rw [← hr0]
          rw [hD, show raw ++ '\n' :: rest = (raw ++ ['\n']) ++ rest by simp] at h
          rw [List.getLast?_append_of_ne_nil _ (by rw [hr0]; simp)] at h
          exact h
      rw [hD, show (raw ++ '\n' :: rest) ++ Y = raw ++ '\n' :: (rest ++ Y) by simp]
      rw [linesOf_line _ hraw, linesOf_line _ hraw, ih rest Y hrest hrc]
      simp

/-- Boolean discriminators of line actions. -/
def isFragB : LineResult → Bool
  | .frag _ => true
  | _ => false

def isDoneB : LineResult → Bool
  | .done => true
  | _ => false

theorem isFragB_eq {r : LineResult} (h : isFragB r = true) : ∃ d, r = .frag d := by
  cases r <;> simp_all [isFragB]

theorem refR_no_frag :
    ∀ n (buf a cs : _), buf.length ≤ n →
      (∀ raw ∈ (linesOf buf).1, isFragB (lineAction raw) = false) →
      (refR buf a cs).acc = a ∧ (refR buf a cs).calls = cs := by
  intro n
  induction n with
  | zero =>
    intro buf a cs hn _
    have hD : buf = [] := List.length_eq_zero.mp (Nat.le_zero.mp hn)
    subst hD
    exact ⟨rfl, rfl⟩
  | succ n ih =>
    intro buf a cs hn h
    cases hsp : splitLine buf with
    | none => rw [refR_none hsp]; exact ⟨rfl, rfl⟩
    | some p =>
      obtain ⟨raw, rest⟩ := p
      obtain ⟨hD, hraw⟩ := splitLine_decomp hsp
      have hrest : rest.length ≤ n := by have := splitLine_length hsp; omega
      have hlines : (linesOf buf).1 = raw :: (linesOf rest).1 := by
        rw [hD, linesOf_line _ hraw]
      have hrawmem : raw ∈ (linesOf buf).1 := by rw [hlines]; simp
      have hrest2 : ∀ r2 ∈ (linesOf rest).1, isFragB (lineAction r2) = false := by
        intro r2 hr2
        exact h r2 (by rw [hlines]; simp [hr2])
      cases hact : lineAction raw with
      | skip => rw [refR_skip hsp hact]; exact ih rest a cs hrest hrest2
      | frag d =>
        have := h raw hrawmem
        rw [hact] at this
        simp [isFragB] at this
      | done => rw [refR_done hsp hact]; exact ih rest a cs hrest hrest2
      | bad l => rw [refR_bad hsp hact]; exact ⟨rfl, rfl⟩

/-- Classification of one run of the inner loop: either it ended cleanly
(no complete line left unless the last consumed line was the sentinel), or
it stalled on a failing line which it pushed back. -/
theorem processL_cases :
    ∀ n (buf a cs : _), buf.length ≤ n →
      (∃ E, buf = E ++ (processL buf a cs).buffer ∧
        refR E a cs = ⟨[], (processL buf a cs).acc, (processL buf a cs).calls⟩ ∧
        ((linesOf (processL buf a cs).buffer).1 ≠ [] →
          ∃ l ∈ (linesOf E).1, lineAction l = .done))
      ∨
      (∃ E raw rest lb, buf = E ++ (raw ++ '\n' :: rest) ∧ '\n' ∉ raw ∧
        lineAction raw = .bad lb ∧
        refR E a cs = ⟨[], (processL buf a cs).acc, (processL buf a cs).calls⟩ ∧
        (processL buf a cs).buffer = lb ++ '\n' :: rest) := by
  intro n
  induction n with
  | zero =>
    intro buf a cs hn
    have hD : buf = [] := List.length_eq_zero.mp (Nat.le_zero.mp hn)
    subst hD
    left
    exact ⟨[], rfl, rfl, by intro hx; simp [processL, processLines, linesOf] at hx⟩
  | succ n ih =>
    intro buf a cs hn
    cases hsp : splitLine buf with
    | none =>
      left
      rw [processL_none hsp]
      refine ⟨[], rfl, rfl, fun hx => ?_⟩
      rw [linesOf_no_newline (splitLine_none hsp)] at hx
      simp at hx
    | some p =>
      obtain ⟨raw, rest⟩ := p
      obtain ⟨hD, hraw⟩ := splitLine_decomp hsp
      have hrest : rest.length ≤ n := by have := splitLine_length hsp; omega
      cases hact : lineAction raw with
      | skip =>
        rw [processL_skip hsp hact]
        rcases ih rest a cs hrest with ⟨E, h1, h2, h3⟩ | ⟨E, raw2, rest2, lb, h1, h2, h3, h4, h5⟩
        · left
          refine ⟨raw ++ '\n' :: E, ?_, ?_, ?_⟩
          · rw [hD]; conv_lhs => rw [h1]
            simp
          · rw [refR_skip (splitLine_build _ hraw) hact]; exact h2
          · intro hx
            obtain ⟨l, hl1, hl2⟩ := h3 hx
            exact ⟨l, by rw [linesOf_line _ hraw]; simp [hl1], hl2⟩
        · right
          refine ⟨raw ++ '\n' :: E, raw2, rest2, lb, ?_, h2, h3, ?_, h5⟩
          · rw [hD, h1]; simp
          · rw [refR_skip (splitLine_build _ hraw) hact]; exact h4
      | frag d =>
        rw [processL_frag hsp hact]
        rcases ih rest (a ++ d) (cs ++ [a ++ d]) hrest with
          ⟨E, h1, h2, h3⟩ | ⟨E, raw2, rest2, lb, h1, h2, h3, h4, h5⟩
        · left
          refine ⟨raw ++ '\n' :: E, ?_, ?_, ?_⟩
          · rw [hD]; conv_lhs => rw [h1]
            simp
          · rw [refR_frag (splitLine_build _ hraw) hact]; exact h2
          · intro hx
            obtain ⟨l, hl1, hl2⟩ := h3 hx
            exact ⟨l, by rw [linesOf_line _ hraw]; simp [hl1], hl2⟩
        · right
          refine ⟨raw ++ '\n' :: E, raw2, rest2, lb, ?_, h2, h3, ?_, h5⟩
          · rw [hD, h1]; simp
          · rw [refR_frag (splitLine_build _ hraw) hact]; exact h4
      | done =>
        rw [processL_done hsp hact]
        left
        refine ⟨raw ++ ['\n'], ?_, ?_, ?_⟩
        · rw [hD]; simp
        · rw [refR_done (splitLine_build [] hraw) hact, refR_nil]
        · intro _
          refine ⟨raw, ?_, hact⟩
          rw [show raw ++ ['\n'] = raw ++ '\n' :: ([] : Str) from rfl, linesOf_line _ hraw]
          simp
      | bad lb =>
        rw [processL_bad hsp hact]
        right
        exact ⟨[], raw, rest, lb, by rw [hD]; simp, hraw, hact, rfl, rfl⟩

/-! ### The chunking invariant

InvC C s relates the total text C fed to the decoder so far to its state s:
either the consumed prefix D was processed cleanly (with a sentinel line
last whenever complete lines remain buffered), or the decoder is stalled on
a failing line that push-back keeps at the front of the buffer. -/

/-- Chunking invariant of the decode loop. -/
def InvC (C : Str) (s : TState) : Prop :=
  (∃ D, C = D ++ s.buffer ∧ refR D [] [] = ⟨[], s.acc, s.calls⟩ ∧
    ((linesOf s.buffer).1 ≠ [] → ∃ l ∈ (linesOf D).1, lineAction l = .done))
  ∨
  (∃ D raw rest hl, C = D ++ (raw ++ '\n' :: rest) ∧ '\n' ∉ raw ∧
    (∃ lb, lineAction raw = .bad lb) ∧ refR D [] [] = ⟨[], s.acc, s.calls⟩ ∧
    s.buffer = hl ++ '\n' :: rest ∧ '\n' ∉ hl ∧
    dataTag.isPrefixOf hl = true ∧ badPayload (jsTrim (hl.drop 6)))

theorem invC_init : InvC [] ⟨[], [], []⟩ := by
  left
  exact ⟨[], rfl, rfl, by intro hx; simp [linesOf] at hx⟩

theorem invC_feed {C : Str} {s : TState} (h : InvC C s) (t : Str) :
    InvC (C ++ t) (feedText s t) := by
  rcases h with ⟨D, h1, h2, h3⟩ | ⟨D, raw, rest, hl, h1, h2, h3, h4, h5, h6, h7, h8⟩
  · -- clean state: classify the new inner-loop run
    rcases processL_cases (s.buffer ++ t).length (s.buffer ++ t) s.acc s.calls
        (Nat.le_refl _) with ⟨E, g1, g2, g3⟩ | ⟨E, raw2, rest2, lb, g1, g2, g3, g4, g5⟩
    · left
      have hcomp : refR (D ++ E) [] [] = ⟨[], (feedText s t).acc, (feedText s t).calls⟩ := by
        rw [refR_append h2]; exact g2
      refine ⟨D ++ E, ?_, hcomp, ?_⟩
      · rw [h1, List.append_assoc]
        conv_lhs => rw [g1]
        simp [feedText]
      · intro hx
        obtain ⟨l, hl1, hl2⟩ := g3 hx
        have hDc : D = [] ∨ D.getLast? = some '\n' :=
          refR_leftover D.length D [] [] (Nat.le_refl _) (by rw [h2])
        rw [linesOf_append_complete (D ++ E).length D E (by simp) hDc]
        exact ⟨l, by simp [hl1], hl2⟩
    · right
      have hcomp : refR (D ++ E) [] [] = ⟨[], (feedText s t).acc, (feedText s t).calls⟩ := by
        rw [refR_append h2]; exact g4
      obtain ⟨hlb1, hlb2, hlb3⟩ := lineAction_bad_spec g3
      refine ⟨D ++ E, raw2, rest2, lb, ?_, g2, ⟨lb, g3⟩, hcomp, g5, ?_, hlb2, hlb3⟩
      · rw [h1, List.append_assoc]
        conv_lhs => rw [g1]
        simp
      · rw [hlb1]
        intro hmem
        exact g2 (stripCR_sub hmem)
  · -- stalled state: the head line fails again
    have hact : lineAction hl = .bad (stripCR hl) := lineAction_bad_intro h7 h8
    have hsp : splitLine (s.buffer ++ t) = some (hl, rest ++ t) := by
      rw [h5, show (hl ++ '\n' :: rest) ++ t = hl ++ '\n' :: (rest ++ t) by simp]
      exact splitLine_build _ h6
    have hstep : feedText s t = ⟨stripCR hl ++ '\n' :: (rest ++ t), s.acc, s.calls⟩ := by
      unfold feedText
      rw [processL_bad hsp hact]
    right
    obtain ⟨hp2, hpay2⟩ := payload_stripCR h7
    refine ⟨D, raw, rest ++ t, stripCR hl, ?_, h2, h3, ?_, ?_, ?_, hp2, ?_⟩
    · rw [h1]; simp
    · rw [hstep]; exact h4
    · rw [hstep]
    · intro hmem; exact h6 (stripCR_sub hmem)
    · rw [hpay2]; exact h8

theorem invC_run (ts : List Str) :
    ∀ C s, InvC C s → InvC (C ++ ts.flatten) (ts.foldl feedText s) := by
  induction ts with
  | nil => intro C s h; simpa using h
  | cons t ts ih =>
    intro C s h
    have h2 := ih (C ++ t) (feedText s t) (invC_feed h t)
    simpa [List.flatten] using h2

theorem invC_runText (ts : List Str) : InvC ts.flatten (runText ts) := by
  have := invC_run ts [] ⟨[], [], []⟩ invC_init
  simpa [runText] using this

/-! ### Extraction of the final state -/

/-- The proviso forced by the sentinel semantics: among the complete lines
of the whole stream, no fragment-carrying line comes after a sentinel
line. -/
@[reducible] def noFragAfterDone (T : Str) : Prop :=
  ∀ j, j < ((linesOf T).1).length →
    isFragB (lineAction (((linesOf T).1).getD j [])) = true →
    ∀ i, i < j → isDoneB (lineAction (((linesOf T).1).getD i [])) = false

theorem mem_getD {α : Type} [Inhabited α] {l : List α} {a : α} (h : a ∈ l) :
    ∃ i, i < l.length ∧ l.getD i default = a := by
  induction l with
  | nil => simp at h
  | cons x xs ih =>
    rcases List.mem_cons.mp h with h1 | h2
    · exact ⟨0, by simp, h1.symm⟩
    · obtain ⟨i, hi1, hi2⟩ := ih h2
      exact ⟨i + 1, by simp; omega, hi2⟩

theorem getD_append_left {α : Type} {l1 l2 : List α} {i : Nat} (d : α)
    (h : i < l1.length) : (l1 ++ l2).getD i d = l1.getD i d := by
  induction l1 generalizing i with
  | nil => simp at h
  | cons x xs ih =>
    cases i with
    | zero => rfl
    | succ i => simp only [List.cons_append, List.getD_cons_succ]
                exact ih (by simp at h; omega)

theorem getD_append_right {α : Type} {l1 l2 : List α} {k : Nat} (d : α) :
    (l1 ++ l2).getD (l1.length + k) d = l2.getD k d := by
  induction l1 with
  | nil => simp
  | cons x xs ih =>
    simp only [List.cons_append, List.length_cons]
    rw [show xs.length + 1 + k = (xs.length + k) + 1 by omega, List.getD_cons_succ]
    exact ih

theorem invC_final {T : Str} {s : TState} (h : InvC T s) (hP : noFragAfterDone T) :
    (refR T [] []).acc = s.acc ∧ (refR T [] []).calls = s.calls := by
  rcases h with ⟨D, h1, h2, h3⟩ | ⟨D, raw, rest, hl, h1, h2, h3, h4, h5, h6, h7, h8⟩
  · have hDc : D = [] ∨ D.getLast? = some '\n' :=
      refR_leftover D.length D [] [] (Nat.le_refl _) (by rw [h2])
    have hT : refR T [] [] = refR s.buffer s.acc s.calls := by
      rw [h1]; exact refR_append h2
    have hnofrag : ∀ r2 ∈ (linesOf s.buffer).1, isFragB (lineAction r2) = false := by
      intro r2 hr2
      have hbufne : (linesOf s.buffer).1 ≠ [] := by
        intro hx; rw [hx] at hr2; simp at hr2
      obtain ⟨l, hl1, hl2⟩ := h3 hbufne
      by_contra hfrag
      have hfrag2 : isFragB (lineAction r2) = true := by
        cases hq : isFragB (lineAction r2) with
        | false => exact absurd hq hfrag
        | true => rfl
      obtain ⟨i, hi1, hi2⟩ := mem_getD hl1
      obtain ⟨k, hk1, hk2⟩ := mem_getD hr2
      have hlines : (linesOf T).1 = (linesOf D).1 ++ (linesOf s.buffer).1 := by
        rw [h1, linesOf_append_complete T.length D s.buffer (by rw [h1]; simp) hDc]
      have hgetj : ((linesOf T).1).getD ((linesOf D).1.length + k) [] = r2 := by
        rw [hlines, getD_append_right]; exact hk2
      have hgeti : ((linesOf T).1).getD i [] = l := by
        rw [hlines, getD_append_left _ hi1]; exact hi2
      have hjlt : (linesOf D).1.length + k < ((linesOf T).1).length := by
        rw [hlines]; simp; omega
      have := hP ((linesOf D).1.length + k) hjlt (by rw [hgetj]; exact hfrag2)
        i (by omega)
      rw [hgeti, hl2] at this
      simp [isDoneB] at this
    have := refR_no_frag s.buffer.length s.buffer s.acc s.calls (Nat.le_refl _) hnofrag
    rw [hT]
    exact this
  · have hT : refR T [] [] = refR (raw ++ '\n' :: rest) s.acc s.calls := by
      rw [h1]; exact refR_append h4
    obtain ⟨lb, hlb⟩ := h3
    rw [hT, refR_bad (splitLine_build _ h2) hlb]
    exact ⟨rfl, rfl⟩

/-- Master chunk-invariance at the text level: under the proviso, any
chunking of the same text yields the accumulator and call list of the
reference semantics. -/
theorem runText_master (ts : List Str) (hP : noFragAfterDone ts.flatten) :
    (runText ts).acc = (refR ts.flatten [] []).acc ∧
      (runText ts).calls = (refR ts.flatten [] []).calls := by
  have h := invC_final (invC_runText ts) hP
  exact ⟨h.1.symm, h.2.symm⟩

/-! ### Transfer from the byte machine to the text machine -/

/-- Decoded text of each chunk under the running decoder state. -/
def textsOf : List Nat → List (List Nat) → List Str
  | _, [] => []
  | u, c :: cs => (u8Feed u c).1 :: textsOf (u8Feed u c).2 cs

theorem feedBytes_eq (u : List Nat) (b a : Str) (k : List Str) (c : List Nat) :
    feedBytes ⟨u, b, a, k⟩ c =
      ⟨(u8Feed u c).2, (feedText ⟨b, a, k⟩ (u8Feed u c).1).buffer,
        (feedText ⟨b, a, k⟩ (u8Feed u c).1).acc,
        (feedText ⟨b, a, k⟩ (u8Feed u c).1).calls⟩ := rfl

theorem runBytes_textsOf :
    ∀ (cs : List (List Nat)) (u : List Nat) (st : TState),
      List.foldl feedBytes ⟨u, st.buffer, st.acc, st.calls⟩ cs =
        ⟨(u8Feed u cs.flatten).2,
          (List.foldl feedText st (textsOf u cs)).buffer,
          (List.foldl feedText st (textsOf u cs)).acc,
          (List.foldl feedText st (textsOf u cs)).calls⟩ := by
  intro cs
  induction cs with
  | nil => intro u st; simp [textsOf, u8Feed]
  | cons c cs ih =>
    intro u st
    simp only [List.foldl_cons, textsOf]
    rw [feedBytes_eq, ih (u8Feed u c).2 (feedText st (u8Feed u c).1)]
    rw [List.flatten_cons, u8Feed_append]

theorem textsOf_flatten :
    ∀ (cs : List (List Nat)) (u : List Nat),
      (textsOf u cs).flatten = (u8Feed u cs.flatten).1 := by
  intro cs
  induction cs with
  | nil => intro u; simp [textsOf, u8Feed]
  | cons c cs ih =>
    intro u
    simp only [textsOf, List.flatten_cons]
    rw [ih, u8Feed_append]

theorem runBytes_eq_runText (cs : List (List Nat)) :
    (runBytes cs).acc = (runText (textsOf [] cs)).acc ∧
      (runBytes cs).calls = (runText (textsOf [] cs)).calls := by
  have h := runBytes_textsOf cs [] ⟨[], [], []⟩
  unfold runBytes runText
  rw [h]
  exact ⟨rfl, rfl⟩

/-- Decoded text of a whole byte stream from a fresh decoder. -/
def decodeAll (bs : List Nat) : Str := (u8Feed [] bs).1

/-- Master chunk-invariance at the byte level: under the proviso, the
accumulator and call list depend only on the decoded bytes, not on how
they were chunked, and equal the result of the reference semantics. -/
theorem runBytes_master (cs : List (List Nat))
    (hP : noFragAfterDone (decodeAll cs.flatten)) :
    (runBytes cs).acc = (refR (decodeAll cs.flatten) [] []).acc ∧
      (runBytes cs).calls = (refR (decodeAll cs.flatten) [] []).calls := by
  obtain ⟨h1, h2⟩ := runBytes_eq_runText cs
  have hjoin : (textsOf [] cs).flatten = decodeAll cs.flatten := textsOf_flatten cs []
  have hm := runText_master (textsOf [] cs) (by rw [hjoin]; exact hP)
  rw [h1, h2, hm.1, hm.2, hjoin]
  exact ⟨rfl, rfl⟩

/-! ### Shape of the call sequence -/

/-- Cumulative concatenations: the successive accumulated texts obtained by
appending each fragment of a list to z in turn. -/
def cumFrom (z : Str) : List Str → List Str
  | [] => []
  | d :: ds => (z ++ d) :: cumFrom (z ++ d) ds

theorem cumFrom_snoc (z : Str) (ds : List Str) (d : Str) :
    cumFrom z (ds ++ [d]) = cumFrom z ds ++ [z ++ ds.flatten ++ d] := by
  induction ds generalizing z with
  | nil => simp [cumFrom]
  | cons e es ih =>
    simp only [List.cons_append, cumFrom, List.append_eq]
    rw [ih (z ++ e)]
    simp [List.append_assoc]

theorem cumFrom_chain (ds : List Str) :
    ∀ (z : Str) i, i + 1 < (cumFrom z ds).length →
      (cumFrom z ds).getD i [] <+: (cumFrom z ds).getD (i + 1) [] := by
  induction ds with
  | nil => intro z i h; simp [cumFrom] at h
  | cons d ds ih =>
    intro z i h
    cases i with
    | zero =>
      cases ds with
      | nil => simp [cumFrom] at h
      | cons e es =>
        simp only [cumFrom, List.getD_cons_succ, List.getD_cons_zero]
        exact List.prefix_append _ _
    | succ i =>
      simp only [cumFrom, List.getD_cons_succ]
      refine ih (z ++ d) i ?_
      simp only [cumFrom, List.length_cons] at h
      omega

/-- Call-list and accumulator shape invariant of one inner-loop run. -/
theorem processLines_shape :
    ∀ f (buf : Str) (ds : List Str),
      ∃ ds2, (processLines f buf ds.flatten (cumFrom [] ds)).acc = ds2.flatten ∧
        (processLines f buf ds.flatten (cumFrom [] ds)).calls = cumFrom [] ds2 := by
  intro f
  induction f with
  | zero => intro buf ds; exact ⟨ds, rfl, rfl⟩
  | succ f ih =>
    intro buf ds
    cases hsp : splitLine buf with
    | none => exact ⟨ds, by simp [processLines, hsp], by simp [processLines, hsp]⟩
    | some p =>
      obtain ⟨raw, rest⟩ := p
      cases hact : lineAction raw with
      | skip => simpa [processLines, hsp, hact] using ih rest ds
      | frag d =>
        have h1 : ds.flatten ++ d = (ds ++ [d]).flatten := by simp
        have h2 : cumFrom [] ds ++ [(ds ++ [d]).flatten] = cumFrom [] (ds ++ [d]) := by
          rw [cumFrom_snoc]; simp
        simp only [processLines, hsp, hact]
        rw [h1, h2]
        exact ih rest (ds ++ [d])
      | done => exact ⟨ds, by simp [processLines, hsp, hact], by simp [processLines, hsp, hact]⟩
      | bad l => exact ⟨ds, by simp [processLines, hsp, hact], by simp [processLines, hsp, hact]⟩

theorem runText_shape :
    ∀ (ts : List Str) (buf : Str) (ds : List Str),
      ∃ ds2, (List.foldl feedText ⟨buf, ds.flatten, cumFrom [] ds⟩ ts).acc = ds2.flatten ∧
        (List.foldl feedText ⟨buf, ds.flatten, cumFrom [] ds⟩ ts).calls = cumFrom [] ds2 := by
  intro ts
  induction ts with
  | nil => intro buf ds; exact ⟨ds, rfl, rfl⟩
  | cons t ts ih =>
    intro buf ds
    simp only [List.foldl_cons]
    obtain ⟨ds2, h1, h2⟩ := processLines_shape (buf ++ t).length (buf ++ t) ds
    have hstate : feedText ⟨buf, ds.flatten, cumFrom [] ds⟩ t =
        ⟨(feedText ⟨buf, ds.flatten, cumFrom [] ds⟩ t).buffer, ds2.flatten, cumFrom [] ds2⟩ := by
      unfold feedText processL
      simp only
      rw [← h1, ← h2]
    rw [hstate]
    exact ih _ ds2

/-- The call list of any run is the cumulative-concatenation image of the
list of appended fragments, and the final text is their concatenation. -/
theorem runBytes_shape (cs : List (List Nat)) :
    ∃ ds, (runBytes cs).calls = cumFrom [] ds ∧ (runBytes cs).acc = ds.flatten := by
  obtain ⟨h1, h2⟩ := runBytes_eq_runText cs
  obtain ⟨ds, g1, g2⟩ := runText_shape (textsOf [] cs) [] []
  exact ⟨ds, by rw [h2]; exact g2, by rw [h1]; exact g1⟩

/-! ### The duplicated decoder of AuthPage.tsx

handleSend in AuthPage.tsx repeats the whole fetch-and-decode loop inline.
Its only difference from streamChat is the fragment effect: instead of an
onDelta callback it applies a functional update to the messages state,
writing the accumulated text into the last assistant message (or appending
one).  The emits field records the successive accumulated-text values given
to those updates, the observable counterpart of the onDelta arguments. -/

/-- A chat message as AuthPage.tsx keeps them in state. -/
structure Msg where
  role : Str
  content : Str
deriving DecidableEq

/-- The functional update handleSend passes to setMessages for a fragment:
rewrite the last message's content when it is an assistant message,
otherwise append a new assistant message. -/
def setMsgsUpd (prev : List Msg) (content : Str) : List Msg :=
  match prev.getLast? with
  | some m =>
    if m.role = ofStr "assistant" then
      prev.mapIdx (fun i m2 => if i = prev.length - 1 then ⟨m2.role, content⟩ else m2)
    else prev ++ [⟨ofStr "assistant", content⟩]
  | none => prev ++ [⟨ofStr "assistant", content⟩]

/-- State of the AuthPage decode loop: buffer, accumulated text, the
successive accumulated-text values applied through setMessages, and the
messages list itself. -/
structure AState where
  buffer : Str
  acc : Str
  emits : List Str
  msgs : List Msg

/-- Inner while loop of handleSend (AuthPage.tsx); identical line handling,
with the setMessages update as the fragment effect. -/
def processLinesA : Nat → Str → Str → List Str → List Msg → AState
  | 0, buf, a, es, ms => ⟨buf, a, es, ms⟩
  | fuel + 1, buf, a, es, ms =>
    match splitLine buf with
    | none => ⟨buf, a, es, ms⟩
    | some (raw, rest) =>
      match lineAction raw with
      | .skip => processLinesA fuel rest a es ms
      | .frag d =>
        processLinesA fuel rest (a ++ d) (es ++ [a ++ d]) (setMsgsUpd ms (a ++ d))
      | .done => ⟨rest, a, es, ms⟩
      | .bad l => ⟨l ++ '\n' :: rest, a, es, ms⟩

/-- Full state of the AuthPage loop including the text decoder. -/
structure ADState where
  u8 : List Nat
  buffer : Str
  acc : Str
  emits : List Str
  msgs : List Msg

/-- One outer read-loop iteration of handleSend. -/
def feedBytesA (s : ADState) (chunk : List Nat) : ADState :=
  let p := u8Feed s.u8 chunk
  let r := processLinesA (s.buffer ++ p.1).length (s.buffer ++ p.1) s.acc s.emits s.msgs
  ⟨p.2, r.buffer, r.acc, r.emits, r.msgs⟩

/-- The decode loop of handleSend over the chunks of the body, starting
from the messages currently displayed. -/
def runBytesA (ms0 : List Msg) (chunks : List (List Nat)) : ADState :=
  chunks.foldl feedBytesA ⟨[], [], [], [], ms0⟩

/-- The fetch-and-decode portion of handleSend (AuthPage.tsx): same guard,
same error, same loop; returns the final accumulated text and the sequence
of accumulated-text values applied to the messages state. -/
def authStream (ms0 : List Msg) (resp : HttpResp) : Except Str Str × List Str :=
  if resp.ok = false then (.error chatFailMsg, [])
  else
    match resp.body with
    | none => (.error chatFailMsg, [])
    | some chunks =>
      let s := runBytesA ms0 chunks
      (.ok s.acc, s.emits)

theorem processLinesA_eq :
    ∀ f (buf a : Str) (es : List Str) (ms : List Msg),
      (processLinesA f buf a es ms).buffer = (processLines f buf a es).buffer ∧
      (processLinesA f buf a es ms).acc = (processLines f buf a es).acc ∧
      (processLinesA f buf a es ms).emits = (processLines f buf a es).calls := by
  intro f
  induction f with
  | zero => intro buf a es ms; exact ⟨rfl, rfl, rfl⟩
  | succ f ih =>
    intro buf a es ms
    cases hsp : splitLine buf with
    | none => simp [processLinesA, processLines, hsp]
    | some p =>
      obtain ⟨raw, rest⟩ := p
      cases hact : lineAction raw with
      | skip =>
        simpa [processLinesA, processLines, hsp, hact] using ih rest a es ms
      | frag d =>
        simpa [processLinesA, processLines, hsp, hact] using
          ih rest (a ++ d) (es ++ [a ++ d]) (setMsgsUpd ms (a ++ d))
      | done => simp [processLinesA, processLines, hsp, hact]
      | bad l => simp [processLinesA, processLines, hsp, hact]

theorem foldl_feedBytesA_eq :
    ∀ (cs : List (List Nat)) (u : List Nat) (b a : Str) (es : List Str) (ms : List Msg),
      (List.foldl feedBytesA ⟨u, b, a, es, ms⟩ cs).acc =
        (List.foldl feedBytes ⟨u, b, a, es⟩ cs).acc ∧
      (List.foldl feedBytesA ⟨u, b, a, es, ms⟩ cs).emits =
        (List.foldl feedBytes ⟨u, b, a, es⟩ cs).calls := by
  intro cs
  induction cs with
  | nil => intro u b a es ms; exact ⟨rfl, rfl⟩
  | cons c cs ih =>
    intro u b a es ms
    simp only [List.foldl_cons]
    obtain ⟨h1, h2, h3⟩ :=
      processLinesA_eq (b ++ (u8Feed u c).1).length (b ++ (u8Feed u c).1) a es ms
    have hA : feedBytesA ⟨u, b, a, es, ms⟩ c =
        ⟨(u8Feed u c).2,
          (processLines (b ++ (u8Feed u c).1).length (b ++ (u8Feed u c).1) a es).buffer,
          (processLines (b ++ (u8Feed u c).1).length (b ++ (u8Feed u c).1) a es).acc,
          (processLines (b ++ (u8Feed u c).1).length (b ++ (u8Feed u c).1) a es).calls,
          (processLinesA (b ++ (u8Feed u c).1).length (b ++ (u8Feed u c).1) a es ms).msgs⟩ := by
      unfold feedBytesA
      rw [← h1, ← h2, ← h3]
    have hB : feedBytes ⟨u, b, a, es⟩ c =
        ⟨(u8Feed u c).2,
          (processLines (b ++ (u8Feed u c).1).length (b ++ (u8Feed u c).1) a es).buffer,
          (processLines (b ++ (u8Feed u c).1).length (b ++ (u8Feed u c).1) a es).acc,
          (processLines (b ++ (u8Feed u c).1).length (b ++ (u8Feed u c).1) a es).calls⟩ := rfl
    rw [hA, hB]
    exact ih (u8Feed u c).2 _ _ _ _

/-! ### Concrete streams used by the claims -/

/-- Bytes of an ASCII text (its UTF-8 encoding when every scalar is below
128); the concrete streams of the examples are ASCII. -/
def asciiBytes (s : Str) : List Nat := s.map Char.toNat

/-- The first example line of the specification. -/
def helloLine : Str :=
  ofStr "data: \x7b\"choices\":[\x7b\"delta\":\x7b\"content\":\"Hello\"\x7d\x7d]\x7d\n"

/-- The second example line of the specification. -/
def worldLine : Str :=
  ofStr "data: \x7b\"choices\":[\x7b\"delta\":\x7b\"content\":\" world\"\x7d\x7d]\x7d\n"

/-- The sentinel line. -/
def doneLine : Str := ofStr "data: [DONE]\n"

/-- A fragment line used by counterexamples. -/
def xLine : Str :=
  ofStr "data: \x7b\"choices\":[\x7b\"delta\":\x7b\"content\":\"X\"\x7d\x7d]\x7d\n"

/-- A line whose delta is the empty array: truthy, but coercing to the
empty string. -/
def emptyArrLine : Str :=
  ofStr "data: \x7b\"choices\":[\x7b\"delta\":\x7b\"content\":[]\x7d\x7d]\x7d\n"

/-- The full example stream of claim C1. -/
def c1Text : Str := helloLine ++ worldLine ++ doneLine

/-- Its bytes. -/
def c1Bytes : List Nat := asciiBytes c1Text

/-! ### Auxiliary facts for the claim theorems -/

/-- The delta carried by a line action, when any. -/
def fragOf : LineResult → Option Str
  | .frag d => some d
  | _ => none

/-- Whether a line action is the parse-failure outcome. -/
def isBadB : LineResult → Bool
  | .bad _ => true
  | _ => false

/-- The truthy deltas of a list of lines, one per fragment-carrying line,
in order. -/
def lineFrags (ls : List Str) : List Str :=
  ls.filterMap (fun raw => fragOf (lineAction raw))

theorem lineFrags_cons_none {raw : Str} {ls : List Str}
    (h : fragOf (lineAction raw) = none) : lineFrags (raw :: ls) = lineFrags ls := by
  simp [lineFrags, List.filterMap_cons, h]

theorem lineFrags_cons_some {raw : Str} {ls : List Str} {d : Str}
    (h : fragOf (lineAction raw) = some d) :
    lineFrags (raw :: ls) = d :: lineFrags ls := by
  simp [lineFrags, List.filterMap_cons, h]

/-- The reference semantics makes exactly one callback per fragment-carrying
line among the complete lines up to the first failing line, in stream
order, with the cumulative text as argument. -/
theorem refR_frags :
    ∀ n (buf a : Str) (cs : List Str), buf.length ≤ n →
      (refR buf a cs).acc =
        a ++ (lineFrags (((linesOf buf).1).takeWhile
          (fun raw => !isBadB (lineAction raw)))).flatten ∧
      (refR buf a cs).calls =
        cs ++ cumFrom a (lineFrags (((linesOf buf).1).takeWhile
          (fun raw => !isBadB (lineAction raw)))) := by
  intro n
  induction n with
  | zero =>
    intro buf a cs hn
    have hb : buf = [] := List.length_eq_zero.mp (Nat.le_zero.mp hn)
    subst hb
    simp [refR_nil, linesOf, lineFrags, cumFrom]
  | succ n ih =>
    intro buf a cs hn
    cases hsp : splitLine buf with
    | none =>
      rw [refR_none hsp, linesOf_no_newline (splitLine_none hsp)]
      simp [lineFrags, cumFrom]
    | some p =>
      obtain ⟨raw, rest⟩ := p
      obtain ⟨hD, hraw⟩ := splitLine_decomp hsp
      have hrest : rest.length ≤ n := by have := splitLine_length hsp; omega
      have hlines : (linesOf buf).1 = raw :: (linesOf rest).1 := by
        rw [hD, linesOf_line _ hraw]
      cases hact : lineAction raw with
      | skip =>
        rw [refR_skip hsp hact, hlines,
          List.takeWhile_cons_of_pos (by simp [hact, isBadB]),
          lineFrags_cons_none (by rw [hact]; rfl)]
        exact ih rest a cs hrest
      | done =>
        rw [refR_done hsp hact, hlines,
          List.takeWhile_cons_of_pos (by simp [hact, isBadB]),
          lineFrags_cons_none (by rw [hact]; rfl)]
        exact ih rest a cs hrest
      | frag d =>
        rw [refR_frag hsp hact, hlines,
          List.takeWhile_cons_of_pos (by simp [hact, isBadB]),
          lineFrags_cons_some (by rw [hact]; rfl)]
        obtain ⟨g1, g2⟩ := ih rest (a ++ d) (cs ++ [a ++ d]) hrest
        constructor
        · rw [g1]; simp [List.append_assoc]
        · rw [g2]
          show (cs ++ [a ++ d]) ++ cumFrom (a ++ d) _ = cs ++ cumFrom a (d :: _)
          simp [cumFrom]
      | bad lb =>
        rw [refR_bad hsp hact, hlines,
          List.takeWhile_cons_of_neg (by simp [hact, isBadB])]
        simp [lineFrags, cumFrom]

theorem prefix_of_stripCR {x l : Str} (h : x.isPrefixOf (stripCR l) = true) :
    x.isPrefixOf l = true := by
  unfold stripCR at h
  split at h
  · rename_i hlast
    have hne : l ≠ [] := by intro hx; subst hx; simp at hlast
    have hdec := List.dropLast_append_getLast hne
    rw [List.isPrefixOf_iff_prefix] at h ⊢
    exact h.trans ⟨[l.getLast hne], hdec⟩
  · exact h

theorem getD_mem {α : Type} {l : List α} {i : Nat} (d : α)
    (h : i < l.length) : l.getD i d ∈ l := by
  induction l generalizing i with
  | nil => simp at h
  | cons x xs ih =>
    cases i with
    | zero => simp
    | succ i =>
      rw [List.getD_cons_succ]
      exact List.mem_cons_of_mem x (ih (by simp at h; omega))

theorem stall_aux :
    ∀ (ts : List Str) (l rest a : Str) (cs : List Str),
      dataTag.isPrefixOf l = true → badPayload (jsTrim (l.drop 6)) → '\n' ∉ l →
      (List.foldl feedText ⟨l ++ '\n' :: rest, a, cs⟩ ts).acc = a ∧
        (List.foldl feedText ⟨l ++ '\n' :: rest, a, cs⟩ ts).calls = cs := by
  intro ts
  induction ts with
  | nil => intro l rest a cs _ _ _; exact ⟨rfl, rfl⟩
  | cons t ts ih =>
    intro l rest a cs hp hb hn
    have hact : lineAction l = .bad (stripCR l) := lineAction_bad_intro hp hb
    have hstep : feedText ⟨l ++ '\n' :: rest, a, cs⟩ t =
        ⟨stripCR l ++ '\n' :: (rest ++ t), a, cs⟩ := by
      unfold feedText
      rw [show (l ++ '\n' :: rest) ++ t = l ++ '\n' :: (rest ++ t) by simp]
      rw [processL_bad (splitLine_build _ hn) hact]
    obtain ⟨hp2, hpay2⟩ := payload_stripCR hp
    simp only [List.foldl_cons, hstep]
    exact ih (stripCR l) (rest ++ t) a cs hp2 (by rw [hpay2]; exact hb)
      (fun hmem => hn (stripCR_sub hmem))

/-! ### The claims -/

theorem jsonParse_none_of_isNone {p : Str} (h : (jsonParse p).isNone = true) :
    jsonParse p = none := Option.isNone_iff_eq_none.mp h

/-- Claim C4: when the response is not ok or has no body, streamChat fails
at once with the transport error "Chat failed", and the list of onDelta
invocations made before that failure is empty. -/
theorem c4_transport (resp : HttpResp) (h : resp.ok = false ∨ resp.body = none) :
    streamChat resp = (.error chatFailMsg, []) := by
  rcases h with h | h
  · simp [streamChat, h]
  · by_cases hok : resp.ok = false
    · simp [streamChat, hok]
    · simp [streamChat, hok, h]

/-- Witness for C4 at the concrete failing response. -/
theorem c4_transport_w :
    ((false = false ∨ (none : Option (List (List Nat))) = none) ∧
      streamChat ⟨false, none⟩ = (.error chatFailMsg, [])) :=
  ⟨Or.inl rfl, c4_transport ⟨false, none⟩ (Or.inl rfl)⟩

/-- Claim C5: when the first complete line of the buffer fails (its payload
does not parse), the decode operation does not fail: the stripped line with
its newline is restored to the front of the buffer, processing of the
current chunk stops there, and the state keeps the accumulated text and
call list gathered so far — so a source that then signals completion still
yields that accumulated text as the operation result. -/
theorem c5_pushback (ts : List Str) (t raw rest l : Str)
    (hsp : splitLine ((runText ts).buffer ++ t) = some (raw, rest))
    (hbad : lineAction raw = .bad l) :
    runText (ts ++ [t]) =
      ⟨l ++ '\n' :: rest, (runText ts).acc, (runText ts).calls⟩ := by
  have hsplit : runText (ts ++ [t]) = feedText (runText ts) t := by
    unfold runText
    rw [List.foldl_append]
    rfl
  rw [hsplit]
  show processL ((runText ts).buffer ++ t) (runText ts).acc (runText ts).calls = _
  rw [processL_bad hsp hbad]

/-- Witness for C5 on a concrete malformed line. -/
theorem c5_pushback_w :
    splitLine ((runText []).buffer ++ ofStr "data: \x7bbroken\n") =
        some (ofStr "data: \x7bbroken", []) ∧
      lineAction (ofStr "data: \x7bbroken") = .bad (ofStr "data: \x7bbroken") ∧
      runText [ofStr "data: \x7bbroken\n"] =
        ⟨ofStr "data: \x7bbroken" ++ '\n' :: [], [], []⟩ := by
  refine ⟨by decide, by decide, ?_⟩
  have h := c5_pushback [] (ofStr "data: \x7bbroken\n") (ofStr "data: \x7bbroken") []
    (ofStr "data: \x7bbroken") (by decide) (by decide)
  simpa using h

/-- Claim C6: a complete buffered line whose data payload is neither the
sentinel nor valid JSON stalls the decoder forever: whatever chunks arrive
afterwards, the accumulated text and the call list never change. -/
theorem c6_stall (l rest a : Str) (cs : List Str)
    (hp : dataTag.isPrefixOf (stripCR l) = true)
    (hd : jsTrim ((stripCR l).drop 6) ≠ doneTok)
    (hj : jsonParse (jsTrim ((stripCR l).drop 6)) = none)
    (hn : '\n' ∉ l) :
    ∀ ts, (List.foldl feedText ⟨l ++ '\n' :: rest, a, cs⟩ ts).acc = a ∧
      (List.foldl feedText ⟨l ++ '\n' :: rest, a, cs⟩ ts).calls = cs := by
  intro ts
  have hp1 : dataTag.isPrefixOf l = true := prefix_of_stripCR hp
  obtain ⟨_, hpay⟩ := payload_stripCR hp1
  refine stall_aux ts l rest a cs hp1 ?_ hn
  rw [← hpay]
  exact ⟨hd, fun v hv => absurd hv (by rw [hj]; simp)⟩

/-- Witness for C6: a malformed line stalls through two further chunks,
one of which carries a well-formed fragment line. -/
theorem c6_stall_w :
    (dataTag.isPrefixOf (stripCR (ofStr "data: \x7bbroken")) = true ∧
      jsTrim ((stripCR (ofStr "data: \x7bbroken")).drop 6) ≠ doneTok ∧
      jsonParse (jsTrim ((stripCR (ofStr "data: \x7bbroken")).drop 6)) = none ∧
      '\n' ∉ (ofStr "data: \x7bbroken" : Str)) ∧
    (List.foldl feedText ⟨ofStr "data: \x7bbroken" ++ '\n' :: [], [], []⟩
        [xLine, doneLine]).acc = [] ∧
    (List.foldl feedText ⟨ofStr "data: \x7bbroken" ++ '\n' :: [], [], []⟩
        [xLine, doneLine]).calls = [] := by
  refine ⟨⟨by decide, by decide, jsonParse_none_of_isNone (by decide), by decide⟩, ?_, ?_⟩
  · exact (c6_stall (ofStr "data: \x7bbroken") [] [] []
      (by decide) (by decide) (jsonParse_none_of_isNone (by decide)) (by decide)
      [xLine, doneLine]).1
  · exact (c6_stall (ofStr "data: \x7bbroken") [] [] []
      (by decide) (by decide) (jsonParse_none_of_isNone (by decide)) (by decide)
      [xLine, doneLine]).2

/-- Claim C7: a sentinel line stops the processing of the current chunk's
remaining lines — a complete fragment line already in the buffer stays
unprocessed — but the loop keeps accepting chunks: when a further chunk
arrives, the retained fragment line is parsed and its fragment appended,
with the callback invoked on the grown accumulated text. -/
theorem c7_done_continues (a : Str) (cs : List Str) (rawD rawF d t : Str)
    (hd : lineAction rawD = .done) (hnD : '\n' ∉ rawD)
    (hf : lineAction rawF = .frag d) (hnF : '\n' ∉ rawF) (hnt : '\n' ∉ t) :
    feedText ⟨[], a, cs⟩ (rawD ++ '\n' :: (rawF ++ ['\n'])) = ⟨rawF ++ ['\n'], a, cs⟩ ∧
      feedText ⟨rawF ++ ['\n'], a, cs⟩ t = ⟨t, a ++ d, cs ++ [a ++ d]⟩ := by
  constructor
  · show processL ([] ++ (rawD ++ '\n' :: (rawF ++ ['\n']))) a cs = _
    rw [List.nil_append, processL_done (splitLine_build _ hnD) hd]
  · show processL ((rawF ++ ['\n']) ++ t) a cs = _
    rw [show (rawF ++ ['\n']) ++ t = rawF ++ '\n' :: t by simp]
    rw [processL_frag (splitLine_build _ hnF) hf,
      processL_none (splitLine_of_no_newline hnt)]

/-- Witness for C7 with the sentinel followed by a buffered fragment line
and an empty later chunk. -/
theorem c7_done_continues_w :
    (lineAction (ofStr "data: [DONE]") = .done ∧
      lineAction (xLine.dropLast) = .frag (ofStr "X")) ∧
    feedText ⟨[], [], []⟩ (ofStr "data: [DONE]" ++ '\n' :: (xLine.dropLast ++ ['\n'])) =
      ⟨xLine.dropLast ++ ['\n'], [], []⟩ ∧
    feedText ⟨xLine.dropLast ++ ['\n'], [], []⟩ [] = ⟨[], ofStr "X", [ofStr "X"]⟩ := by
  have h := c7_done_continues [] [] (ofStr "data: [DONE]") (xLine.dropLast) (ofStr "X") []
    (by decide) (by decide) (by decide) (by decide) (by decide)
  exact ⟨⟨by decide, by decide⟩, by simpa using h.1, by simpa using h.2⟩

/-- Claim C9: one trailing carriage return is stripped from a complete line
before any further parsing (a single one, even when more are present), and
a line that does not then begin with the tag "data: " is discarded: the
loop state is exactly as if the line had not been there, so it produces no
callback, contributes nothing, and cannot affect later lines. -/
theorem c9_strip_discard :
    (∀ l : Str, stripCR (l ++ ['\r']) = l) ∧
    (∀ (raw rest a : Str) (cs : List Str), '\n' ∉ raw →
      dataTag.isPrefixOf (stripCR raw) = false →
      processL (raw ++ '\n' :: rest) a cs = processL rest a cs) := by
  constructor
  · intro l
    unfold stripCR
    rw [List.getLast?_append_cons]
    simp [List.dropLast_concat]
  · intro raw rest a cs hn hnp
    have hact : lineAction raw = .skip := by
      simp only [lineAction]
      rw [if_neg (by simp [hnp])]
    exact processL_skip (splitLine_build _ hn) hact

/-- Witness for C9: a doubly carriage-terminated line loses one return, and
a keep-alive comment line vanishes from the loop state. -/
theorem c9_strip_discard_w :
    stripCR (ofStr "a\r" ++ ['\r']) = ofStr "a\r" ∧
      processL (ofStr ": keep-alive" ++ '\n' :: doneLine) [] [] =
        processL doneLine [] [] := by
  refine ⟨c9_strip_discard.1 (ofStr "a\r"), ?_⟩
  exact c9_strip_discard.2 (ofStr ": keep-alive") doneLine [] [] (by decide) (by decide)

/-- Claim C10: the decoder duplicated inline in handleSend (AuthPage.tsx)
is equivalent to streamChat (UserDashboard.tsx): for every response — hence
every chunk sequence — it produces the same outcome, the same final
accumulated text and the same sequence of accumulated-text values, one per
successfully parsed truthy fragment. -/
theorem c10_duplicate_equiv (ms0 : List Msg) (resp : HttpResp) :
    authStream ms0 resp = streamChat resp := by
  unfold authStream streamChat
  by_cases hok : resp.ok = false
  · simp [hok]
  · simp only [hok, if_false, Bool.false_eq_true]
    cases hb : resp.body with
    | none => rfl
    | some chunks =>
      obtain ⟨h1, h2⟩ := foldl_feedBytesA_eq chunks [] [] [] [] ms0
      show (Except.ok (runBytesA ms0 chunks).acc, (runBytesA ms0 chunks).emits) =
        ((Except.ok (runBytes chunks).acc : Except Str Str), (runBytes chunks).calls)
      rw [show (runBytesA ms0 chunks).acc = (runBytes chunks).acc from h1,
        show (runBytesA ms0 chunks).emits = (runBytes chunks).calls from h2]

/-- Claim C1: for the example stream of the specification — the Hello
line, the world line and the sentinel line — every way of chunking the
bytes makes streamChat call onDelta first with "Hello", then with
"Hello world", and return "Hello world". -/
theorem c1_example (cs : List (List Nat)) (h : cs.flatten = c1Bytes) :
    streamChat ⟨true, some cs⟩ =
      (.ok (ofStr "Hello world"), [ofStr "Hello", ofStr "Hello world"]) := by
  have hdec : decodeAll cs.flatten = c1Text := by rw [h]; decide
  have hP : noFragAfterDone (decodeAll cs.flatten) := by rw [hdec]; decide
  obtain ⟨ha, hc⟩ := runBytes_master cs hP
  rw [hdec] at ha hc
  have hsc : streamChat ⟨true, some cs⟩ =
      (.ok (runBytes cs).acc, (runBytes cs).calls) := rfl
  rw [hsc, ha, hc]
  have h1 : (refR c1Text [] []).acc = ofStr "Hello world" := by decide
  have h2 : (refR c1Text [] []).calls = [ofStr "Hello", ofStr "Hello world"] := by decide
  rw [h1, h2]

/-- Witness for C1: an uneven chunking of the example bytes. -/
theorem c1_example_w :
    (([c1Bytes.take 17, (c1Bytes.drop 17).take 41, c1Bytes.drop 58] :
        List (List Nat)).flatten = c1Bytes) ∧
    streamChat ⟨true, some [c1Bytes.take 17, (c1Bytes.drop 17).take 41, c1Bytes.drop 58]⟩ =
      (.ok (ofStr "Hello world"), [ofStr "Hello", ofStr "Hello world"]) :=
  ⟨by decide, c1_example _ (by decide)⟩

/-- Counterexample to claim C2 as stated: the same bytes — a sentinel line
followed by a fragment line — decode to the empty text when delivered as a
single chunk but to "X" when split at the line boundary: the sentinel only
breaks the inner loop, and the lines buffered after it are processed
exactly when a further chunk arrives. -/
theorem c2_counterexample :
    (runBytes [asciiBytes (doneLine ++ xLine)]).acc = [] ∧
      (runBytes [asciiBytes doneLine, asciiBytes xLine]).acc = ofStr "X" ∧
      asciiBytes (doneLine ++ xLine) =
        ([asciiBytes doneLine, asciiBytes xLine] : List (List Nat)).flatten := by
  exact ⟨by decide, by decide, by decide⟩

/-- Claim C2 as amended: provided no fragment-carrying line follows a
sentinel line among the decoded stream's complete lines, the final
accumulated text of any chunking equals the single-chunk result. -/
theorem c2_chunk_invariance (cs : List (List Nat))
    (hP : noFragAfterDone (decodeAll cs.flatten)) :
    (runBytes cs).acc = (runBytes [cs.flatten]).acc := by
  obtain ⟨h1, _⟩ := runBytes_master cs hP
  have hfl : ([cs.flatten] : List (List Nat)).flatten = cs.flatten := by simp
  obtain ⟨h2, _⟩ := runBytes_master [cs.flatten] (by rw [hfl]; exact hP)
  rw [h1, h2, hfl]

/-- Witness for C2 as amended: a two-chunk split of the example stream. -/
theorem c2_chunk_invariance_w :
    noFragAfterDone (decodeAll
        (([asciiBytes helloLine, asciiBytes (worldLine ++ doneLine)] :
          List (List Nat)).flatten)) ∧
      (runBytes [asciiBytes helloLine, asciiBytes (worldLine ++ doneLine)]).acc =
        (runBytes [([asciiBytes helloLine, asciiBytes (worldLine ++ doneLine)] :
          List (List Nat)).flatten]).acc :=
  ⟨by decide, c2_chunk_invariance _ (by decide)⟩

/-- Counterexample to claim C3 as stated, in both directions.  First, a
line whose delta is the empty array is truthy but coerces to the empty
string, so onDelta is invoked once with the unchanged (empty) accumulated
text although no line of the stream carries a non-empty fragment.  Second,
a malformed line ahead of a well-formed fragment line suppresses that
line's call entirely: the stream contains a complete line carrying the
non-empty fragment "X", yet onDelta is never invoked. -/
theorem c3_counterexample :
    ((runBytes [asciiBytes (emptyArrLine ++ doneLine)]).calls = [[]] ∧
      ∀ raw ∈ (linesOf (decodeAll (asciiBytes (emptyArrLine ++ doneLine)))).1,
        fragOf (lineAction raw) = none ∨ fragOf (lineAction raw) = some []) ∧
    ((runBytes [asciiBytes (ofStr "data: \x7bbroken\n" ++ xLine ++ doneLine)]).calls
        = [] ∧
      xLine.dropLast ∈ (linesOf (decodeAll
        (asciiBytes (ofStr "data: \x7bbroken\n" ++ xLine ++ doneLine)))).1 ∧
      fragOf (lineAction xLine.dropLast) = some (ofStr "X")) := by
  exact ⟨⟨by decide, by decide⟩, by decide, by decide, by decide⟩

/-- Claim C3 as amended: onDelta is called exactly once per line whose
parsed delta is truthy — in particular once per non-empty text fragment —
in the order those lines appear in the stream, among the stream's complete
lines up to the first malformed line (a malformed line stalls the decoder,
and fragment lines behind a sentinel are excluded by the same proviso as
C2): the call list is exactly the cumulative concatenations of those
lines' deltas, the final text is their concatenation, and every call
argument extends the previous one as a prefix — strictly whenever the
appended fragment is non-empty. -/
theorem c3_call_shape (cs : List (List Nat))
    (hP : noFragAfterDone (decodeAll cs.flatten)) :
    (runBytes cs).calls =
      cumFrom [] (lineFrags (((linesOf (decodeAll cs.flatten)).1).takeWhile
        (fun raw => !isBadB (lineAction raw)))) ∧
    (runBytes cs).acc =
      (lineFrags (((linesOf (decodeAll cs.flatten)).1).takeWhile
        (fun raw => !isBadB (lineAction raw)))).flatten ∧
    ∀ i, i + 1 < (runBytes cs).calls.length →
      (runBytes cs).calls.getD i [] <+: (runBytes cs).calls.getD (i + 1) [] := by
  obtain ⟨ha, hc⟩ := runBytes_master cs hP
  obtain ⟨g1, g2⟩ := refR_frags (decodeAll cs.flatten).length (decodeAll cs.flatten)
    [] [] (Nat.le_refl _)
  have hcalls : (runBytes cs).calls =
      cumFrom [] (lineFrags (((linesOf (decodeAll cs.flatten)).1).takeWhile
        (fun raw => !isBadB (lineAction raw)))) := by
    rw [hc, g2, List.nil_append]
  refine ⟨hcalls, ?_, ?_⟩
  · rw [ha, g1, List.nil_append]
  · intro i hi
    rw [hcalls] at hi ⊢
    exact cumFrom_chain _ [] i hi

/-- Witness for C3 as amended on the concrete example stream: two fragment
lines then the sentinel. -/
theorem c3_call_shape_w :
    noFragAfterDone (decodeAll (([c1Bytes] : List (List Nat)).flatten)) ∧
      (runBytes [c1Bytes]).calls =
        cumFrom [] (lineFrags (((linesOf (decodeAll (([c1Bytes] :
          List (List Nat)).flatten))).1).takeWhile
            (fun raw => !isBadB (lineAction raw)))) :=
  ⟨by decide, (c3_call_shape [c1Bytes] (by decide)).1⟩

/-- Claim C8: a stream none of whose complete lines carries a truthy
fragment — only the sentinel line, or only untagged lines — makes
streamChat return the empty accumulated text with zero onDelta calls. -/
theorem c8_no_fragments (cs : List (List Nat))
    (h : ∀ raw ∈ (linesOf (decodeAll cs.flatten)).1,
      isFragB (lineAction raw) = false) :
    streamChat ⟨true, some cs⟩ = (.ok [], []) := by
  have hP : noFragAfterDone (decodeAll cs.flatten) := by
    intro j hj hfrag i _
    exact absurd hfrag (by rw [h _ (getD_mem _ hj)]; simp)
  obtain ⟨ha, hc⟩ := runBytes_master cs hP
  obtain ⟨h1, h2⟩ := refR_no_frag (decodeAll cs.flatten).length
    (decodeAll cs.flatten) [] [] (Nat.le_refl _) h
  have hsc : streamChat ⟨true, some cs⟩ =
      (.ok (runBytes cs).acc, (runBytes cs).calls) := rfl
  rw [hsc, ha, hc, h1, h2]

/-- Witness for C8: the sentinel-only stream, and a stream of untagged
keep-alive lines. -/
theorem c8_no_fragments_w :
    ((∀ raw ∈ (linesOf (decodeAll (([asciiBytes doneLine] :
        List (List Nat)).flatten))).1, isFragB (lineAction raw) = false) ∧
      streamChat ⟨true, some [asciiBytes doneLine]⟩ = (.ok [], [])) ∧
    ((∀ raw ∈ (linesOf (decodeAll (([asciiBytes (ofStr ":ka\n\n")] :
        List (List Nat)).flatten))).1, isFragB (lineAction raw) = false) ∧
      streamChat ⟨true, some [asciiBytes (ofStr ":ka\n\n")]⟩ = (.ok [], [])) :=
  ⟨⟨by decide, c8_no_fragments [asciiBytes doneLine] (by decide)⟩,
    ⟨by decide, c8_no_fragments [asciiBytes (ofStr ":ka\n\n")] (by decide)⟩⟩

end LegalWS